import Mathlib

/-!
# The squashfs archive overlay of rclone (`backend/archive/squashfs/squashfs.go`)

A shallow embedding of the path translation, the directory cache, the
listing and the ranged reads of the squashfs archiver, followed by the
properties established about them.

Conventions of the embedding

* A Go `string` is a `Str`, a list of characters.  The only character the
  code inspects is the separator `'/'`, a single byte that never occurs inside
  a multi-byte sequence, so byte and character positions agree on it.
* A `*squashfs.FS` directory handle is a value of an arbitrary type `N`.
* The archive decoder (`github.com/rclone/squashfs`) is an external
  collaborator: it is a record of functions, `Decoder N`.
* The directory cache `map[string]*squashfs.FS` is an association list in
  which the first binding of a key is the live one; assigning a key conses a
  binding in front.
* `_findDir` recurses on a path that gets shorter except at the empty path,
  where the Go code recurses for ever when `""` is not cached.  The embedding
  carries fuel; `none` stands for that unbounded recursion.
-/

namespace Squashfs

/-- A Go string. -/
abbrev Str := List Char

/-! ## Errors -/

/-- The error values that the code creates or tests for. -/
inductive Error where
  /-- Sentinel `fs.ErrorIsFile`. -/
  | ErrorIsFile
  /-- Sentinel `fs.ErrorDirNotFound`. -/
  | ErrorDirNotFound
  /-- Sentinel `fs.ErrorObjectNotFound`. -/
  | ErrorObjectNotFound
  /-- Sentinel `fs.ErrorNotAFile`. -/
  | ErrorNotAFile
  /-- Sentinel `vfs.EROFS`. -/
  | EROFS
  /-- Sentinel `hash.ErrUnsupported`. -/
  | ErrUnsupported
  /-- Sentinel `io/fs.ErrNotExist`. -/
  | ErrNotExist
  /-- Sentinel `io.EOF`. -/
  | EOF
  /-- Any other error value of a collaborator. -/
  | other (msg : String)
  /-- The result of `fmt.Errorf` without a wrapped error. -/
  | errorf (msg : String)
  /-- The result of `fmt.Errorf("...: %w", err)` or of a `*fs.PathError`. -/
  | wrap (msg : String) (err : Error)
  deriving DecidableEq, Repr

/-- The test `errors.Is(err, target)` for a sentinel `target`: follow the chain
of wrapped errors. -/
def errorsIs : Error → Error → Bool
  | .wrap m e, target => (Error.wrap m e == target) || errorsIs e target
  | e, target => e == target

deriving instance DecidableEq for Except

/-! ## Strings and paths (Go standard library) -/

/-- Go `strings.LastIndexByte(s, c)`; `none` stands for `-1`. -/
def LastIndexByte : Str → Char → Option Nat
  | [], _ => none
  | x :: xs, c =>
    match LastIndexByte xs c with
    | some i => some (i + 1)
    | none => if x = c then some 0 else none

/-- Go `strings.TrimLeft(s, cutset)`. -/
def TrimLeft (s cutset : Str) : Str := s.dropWhile (fun c => decide (c ∈ cutset))

/-- Go `strings.TrimRight(s, cutset)`. -/
def TrimRight (s cutset : Str) : Str :=
  (s.reverse.dropWhile (fun c => decide (c ∈ cutset))).reverse

/-- Go `strings.Trim(s, cutset)`. -/
def Trim (s cutset : Str) : Str := TrimRight (TrimLeft s cutset) cutset

/-- Go `strings.HasPrefix(s, p)`. -/
def HasPrefix (s p : Str) : Bool := p.isPrefixOf s

/-- The elements of a path: the pieces between separators, the empty ones
included (`"a//b"` has the elements `a`, the empty string and `b`). -/
def splitSlash : Str → List Str
  | [] => [[]]
  | c :: cs =>
    if c = '/' then [] :: splitSlash cs
    else
      match splitSlash cs with
      | [] => [[c]]
      | s :: ss => (c :: s) :: ss

/-- One element of `path.Clean`, with `out` the elements kept so far, last
first: an empty element and `.` are dropped; `..` removes the last kept element
unless there is none or it is itself `..`, in which case `..` is kept on an
unrooted path and dropped on a rooted one; any other element is kept. -/
def cleanStep (rooted : Bool) (out : List Str) (e : Str) : List Str :=
  if e = [] ∨ e = ['.'] then out
  else if e = ['.', '.'] then
    match out with
    | [] => if rooted then [] else [e]
    | top :: rest =>
      if top = ['.', '.'] then (if rooted then out else e :: out) else rest
  else e :: out

/-- Join elements with single separators. -/
def joinSlash : List Str → Str
  | [] => []
  | [e] => e
  | e :: es => e ++ '/' :: joinSlash es

/-- Go `path.Clean`: the shortest path equivalent to `path` by purely lexical
processing (single separators, no `.` element, no inner `..` element, no `..`
at the start of a rooted path); the empty result is `.`. -/
def Clean (path : Str) : Str :=
  if path = [] then ['.']
  else
    let rooted := decide (path.head? = some '/')
    let out := (splitSlash path).foldl (cleanStep rooted) []
    let body := joinSlash out.reverse
    if rooted then '/' :: body
    else if body = [] then ['.'] else body

/-- Go `path.Join(a, b)` for two elements: empty elements are ignored, the
rest is joined with a separator and cleaned; all empty gives the empty string. -/
def Join (a b : Str) : Str :=
  if a = [] ∧ b = [] then []
  else if a = [] then Clean b
  else if b = [] then Clean a
  else Clean (a ++ '/' :: b)

/-- Go `path.Split(path)`: split right after the last separator. -/
def Split (path : Str) : Str × Str :=
  match LastIndexByte path '/' with
  | none => ([], path)
  | some i => (path.take (i + 1), path.drop (i + 1))

/-- Go `path.Dir(path)`: the directory part of `Split`, cleaned. -/
def Dir (path : Str) : Str := Clean (Split path).1

/-! ## The collaborators -/

/-- The metadata `item.Info()` gives: `fi.Size()` and `fi.ModTime()`. -/
structure FileInfo where
  Size : Int
  ModTime : Int
  deriving DecidableEq, Repr

/-- One `fs.DirEntry` of the decoder, as `ReadDir` returns it. -/
structure DirItem where
  Name : Str
  IsDir : Bool
  Info : Except Error FileInfo

/-- The `fs.FS` that `Sub` returns: a `*squashfs.FS`, or a value of another
type, on which the type assertion of `_findDir` fails. -/
inductive SubFS (N : Type) where
  | squashFS (dir : N)
  | foreign
  deriving DecidableEq, Repr

/-- The archive decoder, as far as the overlay calls it on a directory handle:
`parent.Sub(leaf)`, `dirFS.ReadDir(".")` and `dir.Open(leaf)`, the last one
giving the bytes that the returned stream yields up to its end. -/
structure Decoder (N : Type) where
  Sub : N → Str → Except Error (SubFS N)
  ReadDir : N → Except Error (List DirItem)
  Open : N → Str → Except Error (List UInt8)

/-- The outer storage layer at construction, for the archive at `remote`:
`fs.ConfigString(wrappedFs)`, `VFS.Stat(remote)`, `node.Open(os.O_RDONLY)` and
`squashfs.NewReader(fh)`, whose result is reduced to the root directory
`rd.FS`. -/
structure Storage (N : Type) where
  ConfigString : Str
  Stat : Str → Except Error Unit
  OpenNode : Str → Except Error Unit
  NewReader : Str → Except Error N

/-! ## The data model -/

/-- An `Object`: a file of the archive as `List` found it.  The field `fs` of
the source points back to the one `Fs`, which the operations take as an
argument. -/
structure Object where
  remote : Str
  size : Int
  modTime : Int
  deriving DecidableEq, Repr

/-- An entry of a listing: `fs.NewDir(remote, modTime)` or an `*Object`. -/
inductive DirEntry where
  | dir (remote : Str) (modTime : Int)
  | object (o : Object)
  deriving DecidableEq, Repr

/-- The type `fs.DirEntries`. -/
abbrev DirEntries := List DirEntry

/-- The type `dirtree.DirTree`, a map from directory to entries. -/
abbrev DirTree := List (Str × DirEntries)

/-- The fields of `Fs` that the operations read or write.  The field
`mountPrefix` is the field `prefix` of the source, a reserved word here; `dt`
is `none` for the nil map. -/
structure Fs (N : Type) where
  name : Str
  remote : Str
  mountPrefix : Str
  prefixSlash : Str
  root : Str
  dt : Option DirTree
  dirCache : List (Str × N)
  deriving DecidableEq

/-- An option of `Open`: `*fs.SeekOption`, `*fs.RangeOption`, or any other
option, of which only `Mandatory()` is read (to log it). -/
inductive OpenOption where
  | SeekOption (Offset : Int)
  | RangeOption (Start End : Int)
  | otherOption (mandatory : Bool)
  deriving DecidableEq, Repr

/-! ## Path translation and the directory cache -/

/-- The loop of `_findDir` that splits `dirPath` at its last separator until
the leaf is not empty.  Every turn shortens `dirPath`, so `dirPath.length + 1`
turns are enough (`splitLoop`). -/
def splitLoopAux : Nat → Str → Str × Str
  | 0, dirPath => ([], dirPath)
  | fuel + 1, dirPath =>
    match LastIndexByte dirPath '/' with
    | none => ([], dirPath)
    | some i =>
      let leaf := dirPath.drop (i + 1)
      if leaf ≠ [] then (dirPath.take i, leaf)
      else splitLoopAux fuel (dirPath.take i)

/-- The pair `(dirPath, leaf)` with which `_findDir` leaves its loop. -/
def splitLoop (dirPath : Str) : Str × Str := splitLoopAux (dirPath.length + 1) dirPath

namespace Fs

variable {N : Type}

/-- `Fs._findDir`: look `dirPath` up in the cache, else resolve the parent,
ask it for the child `leaf` and cache the directory under
`path.Join(dirPath, leaf)`. -/
def _findDir (dec : Decoder N) : Nat → Fs N → Str → Option (Except Error N × Fs N)
  | 0, _, _ => none
  | fuel + 1, f, dirPath =>
    match f.dirCache.lookup dirPath with
    | some dir => some (.ok dir, f)
    | none =>
      let (dirPath, leaf) := splitLoop dirPath
      match _findDir dec fuel f dirPath with
      | none => none
      | some (.error err, f) => some (.error err, f)
      | some (.ok parent, f) =>
        match dec.Sub parent leaf with
        | .error err =>
          if errorsIs err .ErrNotExist then some (.error .ErrorIsFile, f)
          else some (.error err, f)
        | .ok .foreign => some (.error (.errorf "internal error: dir wasn't a *squashfs.FS"), f)
        | .ok (.squashFS dir) =>
          some (.ok dir, { f with dirCache := (Join dirPath leaf, dir) :: f.dirCache })

/-- `Fs.findDir`: trim the separators and resolve.  The recursion shortens
the path down to the empty one, so `dirPath.length + 1` levels are all that a
terminating call uses. -/
def findDir (dec : Decoder N) (f : Fs N) (dirPath : Str) : Option (Except Error N × Fs N) :=
  let dirPath := Trim dirPath ['/']
  _findDir dec (dirPath.length + 1) f dirPath

/-- `Fs.findParent`: the directory a file lives in, and its leaf name. -/
def findParent (dec : Decoder N) (f : Fs N) (name : Str) :
    Option (Except Error (N × Str) × Fs N) :=
  let name := Trim name ['/']
  let (parentPath, leaf) := Split name
  match findDir dec f parentPath with
  | none => none
  | some (.error err, f) => some (.error err, f)
  | some (.ok parent, f) => some (.ok (parent, leaf), f)

/-- `Fs.stripPrefix`: the archive-internal path of an external one. -/
def stripPrefix (f : Fs N) (remote : Str) : Except Error Str :=
  let remote := Trim remote ['/']
  if remote = f.mountPrefix then .ok []
  else if !HasPrefix remote f.prefixSlash then
    .error (.errorf "internal error: remote doesn't start with prefix")
  else .ok (remote.drop f.prefixSlash.length)

/-- The loop of `List` over the items of the directory. -/
def listItems (f : Fs N) (dir : Str) : List DirItem → DirEntries → Except Error DirEntries
  | [], entries => .ok entries
  | item :: items, entries =>
    let remote := f.prefixSlash ++ Join dir item.Name
    match item.Info with
    | .error _ => .error (.errorf "error reading item")
    | .ok fi =>
      let entry :=
        if item.IsDir then DirEntry.dir remote fi.ModTime
        else DirEntry.object { remote := remote, size := fi.Size, modTime := fi.ModTime }
      listItems f dir items (entries ++ [entry])

/-- `Fs.NewObject`, with `Find` the lookup `f.dt.Find(remote)` of the index,
reduced to the entry it returns (`none` for nil). -/
def NewObject (Find : DirTree → Str → Option DirEntry) (f : Fs N) (remote : Str) :
    Except Error Object :=
  match f.dt with
  | none => .error .ErrorObjectNotFound
  | some dt =>
    match Find dt remote with
    | none => .error .ErrorObjectNotFound
    | some (.object o) => .ok o
    | some (.dir _ _) => .error .ErrorNotAFile

/-- `Fs.Mkdir`: the error and the state after the call. -/
def Mkdir (f : Fs N) (_dir : Str) : Error × Fs N := (.EROFS, f)

/-- `Fs.Rmdir`: the error and the state after the call. -/
def Rmdir (f : Fs N) (_dir : Str) : Error × Fs N := (.EROFS, f)

/-- `Fs.Put`: the object, the error and the state after the call. -/
def Put (f : Fs N) (_content : List UInt8) (_src : Object) (_options : List OpenOption) :
    Option Object × Error × Fs N := (none, .EROFS, f)

/-- `Fs.Root`. -/
def Root (f : Fs N) : Str := f.root

/-- `Fs.List`: the entries of the directory `dir`. -/
def List (dec : Decoder N) (f : Fs N) (dir : Str) : Option (Except Error DirEntries × Fs N) :=
  match f.stripPrefix dir with
  | .error err => some (.error err, f)
  | .ok dir =>
    match f.findDir dec dir with
    | none => none
    | some (.error err, f) => some (.error err, f)
    | some (.ok dirFS, f) =>
      match dec.ReadDir dirFS with
      | .error err => some (.error (.wrap "read squashfs: couldn't read directory" err), f)
      | .ok items => some (listItems f dir items [], f)

end Fs

/-! ## Objects -/

/-- Go `io.CopyN(io.Discard, rc, n)` for `n > 0`: the stream after `n` bytes
were read and thrown away, or `io.EOF` when it ends before that. -/
def CopyNDiscard (rc : List UInt8) (n : Int) : Except Error (List UInt8) :=
  if n ≤ rc.length then .ok (rc.drop n.toNat) else .error .EOF

/-- Modelled from the spec: `readers.NewLimitedReadCloser` of `lib/readers`,
which is not part of the sources at hand.  It wraps the remaining stream so
that at most `limit` further bytes are ever returned, then end-of-stream. -/
def NewLimitedReadCloser (rc : List UInt8) (limit : Int) : List UInt8 := rc.take limit.toNat

/-- The loop of `Object.Open` over its options, on the pair `(offset, limit)`.
`Decode start end_ size` is `fs.RangeOption.Decode` of a range option with the
fields `Start` and `End`, from a package that is not part of the sources at
hand. -/
def openOptions (Decode : Int → Int → Int → Int × Int) (size : Int) :
    List OpenOption → Int × Int → Int × Int
  | [], r => r
  | .SeekOption x :: options, (_, limit) => openOptions Decode size options (x, limit)
  | .RangeOption s e :: options, _ => openOptions Decode size options (Decode s e size)
  | .otherOption _ :: options, r => openOptions Decode size options r

namespace Object

variable {N : Type}

/-- `Object.Remote`. -/
def Remote (o : Object) : Str := o.remote

/-- `Object.Size`. -/
def Size (o : Object) : Int := o.size

/-- `Object.Open`: the bytes that the returned stream yields, or the error,
and the state of the `Fs` after the call. -/
def Open (Decode : Int → Int → Int → Int × Int) (dec : Decoder N) (f : Fs N) (o : Object)
    (options : List OpenOption) : Option (Except Error (List UInt8) × Fs N) :=
  let (offset, limit) := openOptions Decode o.Size options (0, -1)
  match f.stripPrefix o.remote with
  | .error err => some (.error err, f)
  | .ok remote =>
    match f.findParent dec remote with
    | none => none
    | some (.error err, f) => some (.error err, f)
    | some (.ok (dir, leaf), f) =>
      match dec.Open dir leaf with
      | .error err => some (.error err, f)
      | .ok rc =>
        match (if offset > 0 then CopyNDiscard rc offset else .ok rc) with
        | .error err => some (.error err, f)
        | .ok rc =>
          if limit ≥ 0 then some (.ok (NewLimitedReadCloser rc (limit - offset)), f)
          else some (.ok rc, f)

/-- `Object.SetModTime`: the error, the `Fs` and the object after the call. -/
def SetModTime (f : Fs N) (o : Object) (_modTime : Int) : Error × Fs N × Object := (.EROFS, f, o)

/-- `Object.Update`: the error, the `Fs` and the object after the call. -/
def Update (f : Fs N) (o : Object) (_content : List UInt8) (_src : Object)
    (_options : List OpenOption) : Error × Fs N × Object := (.EROFS, f, o)

/-- `Object.Remove`: the error, the `Fs` and the object after the call. -/
def Remove (f : Fs N) (o : Object) : Error × Fs N × Object := (.EROFS, f, o)

end Object

/-! ## Construction -/

/-- `New`: the pair `(fs.Fs, error)` it returns.  The features, which no
operation below reads, are left out. -/
def New {N : Type} (st : Storage N) (dec : Decoder N) (remote pfx root : Str) :
    Option (Option (Fs N) × Option Error) :=
  match st.Stat remote with
  | .error err => some (none, some (.wrap "failed to find archive" err))
  | .ok _ =>
    match st.OpenNode remote with
    | .error err => some (none, some (.wrap "failed to open squashfs archive" err))
    | .ok _ =>
      match st.NewReader remote with
      | .error err => some (none, some (.wrap "squashfs reader creation failed" err))
      | .ok rdFS =>
        let f : Fs N :=
          { name := Join st.ConfigString remote
            remote := remote
            root := root
            mountPrefix := pfx
            prefixSlash := if pfx = [] then [] else pfx ++ ['/']
            dt := none
            dirCache := [([], rdFS)] }
        if root = [] then some (some f, none)
        else
          match f.findDir dec root with
          | none => none
          | some (.ok dir, f) => some (some { f with dirCache := [([], dir)] }, none)
          | some (.error err, f) =>
            if err ≠ .ErrorIsFile then some (none, some err)
            else
              match f.findParent dec root with
              | none => none
              | some (.error err, _) => some (none, some err)
              | some (.ok (dir, _), f) =>
                let root := Dir root
                let root := if root = ['.'] ∨ root = ['/'] then [] else root
                some (some { f with root := root, dirCache := [([], dir)] }, some .ErrorIsFile)

/-! ## Sequences of calls -/

/-- One call of an operation of the overlay, from the state of the `Fs` before
it to the state after it, with any arguments and with any decoder behaviour
that `P` admits. -/
inductive Step {N : Type} (P : Decoder N → Prop) : Fs N → Fs N → Prop where
  | findDir (dec : Decoder N) (f : Fs N) (dirPath : Str) (r : Except Error N) (g : Fs N) :
      P dec → f.findDir dec dirPath = some (r, g) → Step P f g
  | findParent (dec : Decoder N) (f : Fs N) (name : Str) (r : Except Error (N × Str))
      (g : Fs N) : P dec → f.findParent dec name = some (r, g) → Step P f g
  | list (dec : Decoder N) (f : Fs N) (dir : Str) (r : Except Error DirEntries) (g : Fs N) :
      P dec → f.List dec dir = some (r, g) → Step P f g
  | openObject (Decode : Int → Int → Int → Int × Int) (dec : Decoder N) (f : Fs N)
      (o : Object) (options : List OpenOption) (r : Except Error (List UInt8)) (g : Fs N) :
      P dec → Object.Open Decode dec f o options = some (r, g) → Step P f g
  | newObject (f : Fs N) : Step P f f
  | mkdir (f : Fs N) (dir : Str) : Step P f (f.Mkdir dir).2
  | rmdir (f : Fs N) (dir : Str) : Step P f (f.Rmdir dir).2
  | put (f : Fs N) (content : List UInt8) (src : Object) (options : List OpenOption) :
      Step P f (f.Put content src options).2.2
  | setModTime (f : Fs N) (o : Object) (modTime : Int) :
      Step P f (Object.SetModTime f o modTime).2.1
  | update (f : Fs N) (o : Object) (content : List UInt8) (src : Object)
      (options : List OpenOption) : Step P f (Object.Update f o content src options).2.1
  | remove (f : Fs N) (o : Object) : Step P f (Object.Remove f o).2.1

/-- Any number of calls, one after the other. -/
def Steps {N : Type} (P : Decoder N → Prop) : Fs N → Fs N → Prop :=
  Relation.ReflTransGen (Step P)

/-- Every behaviour of the decoder. -/
def anyDecoder {N : Type} : Decoder N → Prop := fun _ => True

/-! ## A small archive

The archive of the example: a directory `a` that holds the file `b.txt` with
the four bytes `abcd` and the empty directory `empty`.  The directories are
numbered: `0` the root, `1` for `a`, `2` for `a/empty`. -/

/-- A decoder of the small archive.  A name that is no directory gives a path
error around `ErrNotExist`, for a file as for a missing name. -/
def sampleDecoder : Decoder Nat where
  Sub := fun n leaf =>
    if n = 0 ∧ leaf = "a".toList then .ok (.squashFS 1)
    else if n = 1 ∧ leaf = "empty".toList then .ok (.squashFS 2)
    else .error (.wrap "sub" .ErrNotExist)
  ReadDir := fun n =>
    if n = 0 then .ok [{ Name := "a".toList, IsDir := true, Info := .ok ⟨0, 7⟩ }]
    else if n = 1 then
      .ok [{ Name := "b.txt".toList, IsDir := false, Info := .ok ⟨4, 8⟩ },
           { Name := "empty".toList, IsDir := true, Info := .ok ⟨0, 9⟩ }]
    else .ok []
  Open := fun n leaf =>
    if n = 1 ∧ leaf = "b.txt".toList then .ok [97, 98, 99, 100]
    else .error (.wrap "open" .ErrNotExist)

/-- A decoder every call of which fails with a read error. -/
def failingDecoder : Decoder Nat where
  Sub := fun _ _ => .error (.other "read error")
  ReadDir := fun _ => .error (.other "read error")
  Open := fun _ _ => .error (.other "read error")

/-- A decoder of the small archive that hands out new handles for its
directories: `11` for `a` and `12` for `a/empty`. -/
def rehandlingDecoder : Decoder Nat where
  Sub := fun n leaf =>
    if n = 0 ∧ leaf = "a".toList then .ok (.squashFS 11)
    else if n = 11 ∧ leaf = "empty".toList then .ok (.squashFS 12)
    else .error (.wrap "sub" .ErrNotExist)
  ReadDir := fun _ => .ok []
  Open := fun _ _ => .error (.wrap "open" .ErrNotExist)

/-- A decoder whose root lists the entry `link`, no directory, with the size
5, and that opens no entry (as for a link or a device node). -/
def unopenableDecoder : Decoder Nat where
  Sub := fun _ _ => .error (.wrap "sub" .ErrNotExist)
  ReadDir := fun n =>
    if n = 0 then .ok [{ Name := "link".toList, IsDir := false, Info := .ok ⟨5, 7⟩ }]
    else .ok []
  Open := fun _ _ => .error (.other "not a regular file")

/-- A decoder whose root lists the file `f` with the size 5 and opens it as a
stream of 3 bytes. -/
def shortDecoder : Decoder Nat where
  Sub := fun _ _ => .error (.wrap "sub" .ErrNotExist)
  ReadDir := fun n =>
    if n = 0 then .ok [{ Name := "f".toList, IsDir := false, Info := .ok ⟨5, 7⟩ }]
    else .ok []
  Open := fun n leaf =>
    if n = 0 ∧ leaf = "f".toList then .ok [97, 98, 99]
    else .error (.wrap "open" .ErrNotExist)

/-- A decoder that resolves the name `.` in the root to the handle `3`, a
directory that holds the file `x` of one byte; the root `0` itself lists
nothing and opens nothing. -/
def dotDecoder : Decoder Nat where
  Sub := fun n leaf =>
    if n = 0 ∧ leaf = ".".toList then .ok (.squashFS 3)
    else .error (.wrap "sub" .ErrNotExist)
  ReadDir := fun n =>
    if n = 3 then .ok [{ Name := "x".toList, IsDir := false, Info := .ok ⟨1, 7⟩ }]
    else .ok []
  Open := fun n leaf =>
    if n = 3 ∧ leaf = "x".toList then .ok [97]
    else .error (.wrap "open" .ErrNotExist)

/-- A decoder that resolves no child at all and in which the directory `3`
holds the file `x` of one byte. -/
def plainDecoder : Decoder Nat where
  Sub := fun _ _ => .error (.wrap "sub" .ErrNotExist)
  ReadDir := fun n =>
    if n = 3 then .ok [{ Name := "x".toList, IsDir := false, Info := .ok ⟨1, 7⟩ }]
    else .ok []
  Open := fun n leaf =>
    if n = 3 ∧ leaf = "x".toList then .ok [97]
    else .error (.wrap "open" .ErrNotExist)

/-- A decoder whose root lists an item under the name `d/f`, a name with a
separator, and opens it under that name. -/
def slashNameDecoder : Decoder Nat where
  Sub := fun _ _ => .error (.wrap "sub" .ErrNotExist)
  ReadDir := fun n =>
    if n = 0 then .ok [{ Name := "d/f".toList, IsDir := false, Info := .ok ⟨1, 7⟩ }]
    else .ok []
  Open := fun n leaf =>
    if n = 0 ∧ leaf = "d/f".toList then .ok [97]
    else .error (.wrap "open" .ErrNotExist)

/-- A storage layer that holds the small archive under every name. -/
def sampleStorage : Storage Nat where
  ConfigString := "remote:".toList
  Stat := fun _ => .ok ()
  OpenNode := fun _ => .ok ()
  NewReader := fun _ => .ok 0

/-- The overlay of the small archive right after `New` with the prefix `mnt`
and an empty root. -/
def sampleFs : Fs Nat where
  name := "remote:/x.sqfs".toList
  remote := "x.sqfs".toList
  mountPrefix := "mnt".toList
  prefixSlash := "mnt/".toList
  root := []
  dt := none
  dirCache := [([], 0)]

/-- A range decoder with inclusive ends: the offset is `Start` and the limit
is the number of bytes from `Start` to `End`. -/
def sampleDecode (start end_ _size : Int) : Int × Int := (start, end_ - start + 1)

/-! ## Notions used to state the properties -/

/-- The non-empty elements of a path, in order. -/
def elems (p : Str) : List Str := (splitSlash p).filter (fun e => decide (e ≠ []))

/-- The child lookup of `_findDir` (`parent.Sub(leaf)`, the mapping of its
errors and the type assertion) as one function. -/
def subDir {N : Type} (dec : Decoder N) (parent : N) (leaf : Str) : Except Error N :=
  match dec.Sub parent leaf with
  | .error err => if errorsIs err .ErrNotExist then .error .ErrorIsFile else .error err
  | .ok .foreign => .error (.errorf "internal error: dir wasn't a *squashfs.FS")
  | .ok (.squashFS dir) => .ok dir

/-- What the decoder resolves for a list of elements, one child lookup after
the other from the directory `root`, stopping at the first error. -/
def resolve {N : Type} (dec : Decoder N) (root : N) (es : List Str) : Except Error N :=
  es.foldl (fun acc e =>
    match acc with
    | .ok n => subDir dec n e
    | .error err => .error err) (.ok root)

/-- The cache agrees with the decoder: the empty path is bound to `root`, and
every bound key is bound to the directory that the decoder resolves for the
non-empty elements of the key from `root`. -/
def CacheAgrees {N : Type} (dec : Decoder N) (f : Fs N) (root : N) : Prop :=
  f.dirCache.lookup [] = some root ∧
  ∀ k n, f.dirCache.lookup k = some n → resolve dec root (elems k) = .ok n

/-- Every run of consecutive separators collapsed to a single one. -/
def collapseSlashes : Str → Str
  | c :: d :: rest =>
    if c = '/' ∧ d = '/' then collapseSlashes (d :: rest)
    else c :: collapseSlashes (d :: rest)
  | s => s

/-- The path with every run of separators collapsed to one and with the leading
and trailing separators removed. -/
def normalise (p : Str) : Str := Trim (collapseSlashes p) ['/']

/-- A name of an entry of a directory: not empty, without a separator, and
neither `.` nor `..`. -/
def ValidName (name : Str) : Prop :=
  name ≠ [] ∧ '/' ∉ name ∧ name ≠ ['.'] ∧ name ≠ ['.', '.']

/-- No element of the path is `.` or `..`. -/
def NoDots (p : Str) : Prop := ['.'] ∉ elems p ∧ ['.', '.'] ∉ elems p

instance (name : Str) : Decidable (ValidName name) := by
  unfold ValidName
  infer_instance

instance (p : Str) : Decidable (NoDots p) := by
  unfold NoDots
  infer_instance

/-- What the overlay relies on in a listing of the decoder: every item has the
name of an entry, and an item that is no directory and whose `Info` reports the
size `fi.Size` opens, by its name in the directory listed, as a stream of
exactly that many bytes. -/
def ListingOk {N : Type} (dec : Decoder N) : Prop :=
  ∀ (dir : N) (items : List DirItem) (item : DirItem),
    dec.ReadDir dir = .ok items → item ∈ items →
    ValidName item.Name ∧
    (item.IsDir = false → ∀ fi, item.Info = .ok fi →
      ∃ content, dec.Open dir item.Name = .ok content ∧ (content.length : Int) = fi.Size)

/-- The decoder resolves children by name: `Sub` succeeds on no name that is
`.` or `..`, which name no entry of a directory. -/
def SubOk {N : Type} (dec : Decoder N) : Prop :=
  ∀ (parent : N) (leaf : Str) (r : SubFS N), dec.Sub parent leaf = .ok r →
    leaf ≠ ['.'] ∧ leaf ≠ ['.', '.']

/-! # Properties -/

/-! ## Trimming -/

theorem TrimLeft_slash (s : Str) :
    TrimLeft s ['/'] = s.dropWhile (fun c => decide (c = '/')) := by
  simp [TrimLeft]

theorem TrimRight_slash (s : Str) :
    TrimRight s ['/'] = s.rdropWhile (fun c => decide (c = '/')) := by
  simp [TrimRight, List.rdropWhile]

theorem TrimLeft_of_head (s : Str) (h : s.head? ≠ some '/') : TrimLeft s ['/'] = s := by
  rw [TrimLeft_slash]
  cases s with
  | nil => rfl
  | cons c cs =>
    have : c ≠ '/' := by simpa using h
    simp [this]

theorem TrimRight_of_getLast (s : Str) (h : s.getLast? ≠ some '/') : TrimRight s ['/'] = s := by
  rw [TrimRight_slash, List.rdropWhile_eq_self_iff]
  intro hl
  rw [List.getLast?_eq_getLast _ hl] at h
  simpa using h

theorem Trim_of_trimmed (s : Str) (h1 : s.head? ≠ some '/') (h2 : s.getLast? ≠ some '/') :
    Trim s ['/'] = s := by
  rw [Trim, TrimLeft_of_head s h1, TrimRight_of_getLast s h2]

theorem TrimLeft_head (s : Str) : (TrimLeft s ['/']).head? ≠ some '/' := by
  rw [TrimLeft_slash]
  have h := List.head?_dropWhile_not (fun c => decide (c = '/')) s
  intro hc
  rw [hc] at h
  simp at h

theorem TrimRight_getLast (s : Str) : (TrimRight s ['/']).getLast? ≠ some '/' := by
  rw [TrimRight_slash]
  intro hc
  have hne : List.rdropWhile (fun c => decide (c = '/')) s ≠ [] := by
    intro h0
    rw [h0] at hc
    simp at hc
  have h := List.rdropWhile_last_not (fun c => decide (c = '/')) s hne
  rw [List.getLast?_eq_getLast _ hne] at hc
  simp only [Option.some.injEq] at hc
  rw [hc] at h
  simp at h

theorem TrimRight_head (s : Str) (h : s.head? ≠ some '/') :
    (TrimRight s ['/']).head? ≠ some '/' := by
  rw [TrimRight_slash]
  cases s with
  | nil => simp
  | cons c cs =>
    have hc : c ≠ '/' := by simpa using h
    obtain ⟨t, ht⟩ := List.rdropWhile_prefix (fun c => decide (c = '/')) (c :: cs)
    cases hr : List.rdropWhile (fun c => decide (c = '/')) (c :: cs) with
    | nil =>
      rw [List.rdropWhile_eq_nil_iff] at hr
      have := hr c (List.mem_cons_self _ _)
      simp [hc] at this
    | cons x xs =>
      rw [hr] at ht
      simp only [List.cons_append, List.cons.injEq] at ht
      simp [ht.1, hc]

theorem Trim_head (s : Str) : (Trim s ['/']).head? ≠ some '/' :=
  TrimRight_head _ (TrimLeft_head s)

theorem Trim_getLast (s : Str) : (Trim s ['/']).getLast? ≠ some '/' :=
  TrimRight_getLast _

theorem Trim_Trim (s : Str) : Trim (Trim s ['/']) ['/'] = Trim s ['/'] :=
  Trim_of_trimmed _ (Trim_head s) (Trim_getLast s)

theorem Trim_nil : Trim [] ['/'] = [] := rfl

/-! ## Path translation -/

theorem Trim_append_slash (s : Str) (h : Trim s ['/'] = s) : Trim (s ++ ['/']) ['/'] = s := by
  have h1 : s.head? ≠ some '/' := by rw [← h]; exact Trim_head s
  have h2 : s.getLast? ≠ some '/' := by rw [← h]; exact Trim_getLast s
  cases s with
  | nil => decide
  | cons c cs =>
    have hl : TrimLeft ((c :: cs) ++ ['/']) ['/'] = (c :: cs) ++ ['/'] :=
      TrimLeft_of_head _ (by simpa using h1)
    rw [Trim, hl, TrimRight_slash, List.rdropWhile_concat_pos _ _ _ (by simp),
      ← TrimRight_slash, TrimRight_of_getLast _ h2]

theorem stripPrefix_self {N : Type} (f : Fs N) (h : Trim f.mountPrefix ['/'] = f.mountPrefix) :
    f.stripPrefix f.mountPrefix = .ok [] := by
  simp [Fs.stripPrefix, h]

theorem stripPrefix_join {N : Type} (f : Fs N) (p : Str)
    (hslash : f.prefixSlash = if f.mountPrefix = [] then [] else f.mountPrefix ++ ['/'])
    (hpfx : Trim f.mountPrefix ['/'] = f.mountPrefix)
    (hlast : p.getLast? ≠ some '/')
    (hhead : f.mountPrefix = [] → p.head? ≠ some '/') :
    f.stripPrefix (f.mountPrefix ++ '/' :: p) = .ok p := by
  have h1 : f.mountPrefix.head? ≠ some '/' := by rw [← hpfx]; exact Trim_head _
  by_cases hp : p = []
  · subst hp
    have := Trim_append_slash f.mountPrefix hpfx
    simp [Fs.stripPrefix, this]
  · by_cases hm : f.mountPrefix = []
    · have hT : Trim ('/' :: p) ['/'] = p := by
        have : TrimLeft ('/' :: p) ['/'] = p := by
          rw [TrimLeft_slash]
          simp only [decide_True, List.dropWhile_cons_of_pos]
          rw [← TrimLeft_slash]
          exact TrimLeft_of_head _ (hhead hm)
        rw [Trim, this, TrimRight_of_getLast _ hlast]
      simp [Fs.stripPrefix, hm, hT, hslash, hp, HasPrefix]
    · have hT : Trim (f.mountPrefix ++ '/' :: p) ['/'] = f.mountPrefix ++ '/' :: p := by
        apply Trim_of_trimmed
        · cases hq : f.mountPrefix with
          | nil => exact absurd hq hm
          | cons c cs => rw [hq] at h1; simpa using h1
        · rw [List.getLast?_append_of_ne_nil _ (by simp)]
          obtain ⟨c, cs, rfl⟩ := List.exists_cons_of_ne_nil hp
          rw [List.getLast?_cons_cons]
          exact hlast
      have hne : f.mountPrefix ++ '/' :: p ≠ f.mountPrefix := by
        intro h
        have := congrArg List.length h
        simp at this
      simp [Fs.stripPrefix, hT, hne, hslash, hm, HasPrefix]

/-- C1, counterexample: with the prefix `mnt` and the path `a/`, stripping the
prefix from `mnt/a/` gives `a`, not `a/`, because the input is trimmed first;
with the prefix `/mnt`, stripping it from `/mnt` fails; and with the empty
prefix and the path `/a`, stripping it from `//a` gives `a`. -/
theorem stripPrefix_trailing_slash_counterexample :
    sampleFs.mountPrefix = "mnt".toList ∧ sampleFs.prefixSlash = "mnt".toList ++ ['/'] ∧
    sampleFs.stripPrefix ("mnt".toList ++ '/' :: "a/".toList) = .ok "a".toList ∧
    sampleFs.stripPrefix ("mnt".toList ++ '/' :: "a/".toList) ≠ .ok "a/".toList ∧
    Fs.stripPrefix
      ({ sampleFs with mountPrefix := "/mnt".toList, prefixSlash := "/mnt".toList ++ ['/'] } :
        Fs Nat) "/mnt".toList =
      .error (.errorf "internal error: remote doesn't start with prefix") ∧
    Fs.stripPrefix ({ sampleFs with mountPrefix := [], prefixSlash := [] } : Fs Nat)
      ([] ++ '/' :: "/a".toList) = .ok "a".toList := by
  decide

/-- C1, amended: on an `Fs` whose `prefixSlash` is the prefix followed by a
separator (empty for an empty prefix) and whose prefix neither starts nor ends
with a separator, for every path `p` that does not end with a separator (and
does not start with one when the prefix is empty), `stripPrefix` of
`prefix + "/" + p` succeeds with exactly `p`, and `stripPrefix` of the prefix
succeeds with the empty string. -/
theorem stripPrefix_roundtrip {N : Type} (f : Fs N) (p : Str)
    (hslash : f.prefixSlash = if f.mountPrefix = [] then [] else f.mountPrefix ++ ['/'])
    (hpfx : Trim f.mountPrefix ['/'] = f.mountPrefix)
    (hlast : p.getLast? ≠ some '/')
    (hhead : f.mountPrefix = [] → p.head? ≠ some '/') :
    f.stripPrefix (f.mountPrefix ++ '/' :: p) = .ok p ∧ f.stripPrefix f.mountPrefix = .ok [] :=
  ⟨stripPrefix_join f p hslash hpfx hlast hhead, stripPrefix_self f hpfx⟩

/-- C1, amended, at the prefix `mnt` and the path `a/b.txt`. -/
theorem stripPrefix_roundtrip_witness :
    sampleFs.stripPrefix (sampleFs.mountPrefix ++ '/' :: "a/b.txt".toList) = .ok "a/b.txt".toList ∧
    sampleFs.stripPrefix sampleFs.mountPrefix = .ok [] :=
  stripPrefix_roundtrip sampleFs "a/b.txt".toList (by decide) (by decide) (by decide) (by decide)

/-! ## Read-only operations -/

/-- C7: each of `Mkdir`, `Rmdir`, `Put`, `SetModTime`, `Update` and `Remove`
returns `vfs.EROFS` for every input, `Put` with no object, and the `Fs` (its
directory cache included) and the object after the call are the ones before
it. -/
theorem mutating_operations_fail_read_only {N : Type} (f : Fs N) (o src : Object) (dir : Str)
    (content : List UInt8) (options : List OpenOption) (modTime : Int) :
    f.Mkdir dir = (Error.EROFS, f) ∧
    f.Rmdir dir = (Error.EROFS, f) ∧
    f.Put content src options = (none, Error.EROFS, f) ∧
    Object.SetModTime f o modTime = (Error.EROFS, f, o) ∧
    Object.Update f o content src options = (Error.EROFS, f, o) ∧
    Object.Remove f o = (Error.EROFS, f, o) :=
  ⟨rfl, rfl, rfl, rfl, rfl, rfl⟩

/-! ## Missing directories -/

/-- C3, the code at the failing input: in the small archive the root has the
single entry `a`, so `nosuch` names no entry at all and the child lookup wraps
`ErrNotExist`; `findDir` and `List` then fail with `fs.ErrorIsFile`, not with
the directory-not-found error. -/
theorem List_missing_directory_is_file :
    sampleDecoder.ReadDir 0 = .ok [{ Name := "a".toList, IsDir := true, Info := .ok ⟨0, 7⟩ }] ∧
    sampleDecoder.Sub 0 "nosuch".toList = .error (.wrap "sub" .ErrNotExist) ∧
    sampleFs.findDir sampleDecoder "nosuch".toList = some (.error .ErrorIsFile, sampleFs) ∧
    sampleFs.List sampleDecoder "mnt/nosuch".toList = some (.error .ErrorIsFile, sampleFs) ∧
    sampleFs.List sampleDecoder "mnt/nosuch".toList ≠ some (.error .ErrorDirNotFound, sampleFs) := by
  refine ⟨rfl, ?_, ?_, ?_, ?_⟩ <;> decide

/-! ## A root that names a file -/

/-- C5, the code at the failing input: with the root `a/b.txt/` the
construction ends in single-object mode and the cache maps the empty path to
the directory `a` (number `1`), yet the mount root it reports is `a/b.txt`, the
file itself; with the root `a/b.txt` it reports `a`. -/
theorem New_root_with_trailing_slash :
    New sampleStorage sampleDecoder "x.sqfs".toList "mnt".toList "a/b.txt/".toList =
      some (some { sampleFs with root := "a/b.txt".toList, dirCache := [([], 1)] },
        some .ErrorIsFile) ∧
    Fs.Root { sampleFs with root := "a/b.txt".toList, dirCache := [([], 1)] } =
      "a/b.txt".toList ∧
    New sampleStorage sampleDecoder "x.sqfs".toList "mnt".toList "a/b.txt".toList =
      some (some { sampleFs with root := "a".toList, dirCache := [([], 1)] },
        some .ErrorIsFile) ∧
    sampleFs.findDir sampleDecoder "a".toList =
      some (.ok 1, { sampleFs with dirCache := [("a".toList, 1), ([], 0)] }) := by
  decide

/-! ## Ranged reads -/

/-- C4: when `Open` with no option yields the content `full`, then for all
`k` and `n` with `k + n` at most the length of `full`, `Open` with options that
decode to the offset `k` and the limit `k + n` succeeds, leaves the `Fs` in the
same state, and yields exactly the `n` bytes of `full` from position `k` on. -/
theorem Open_range {N : Type} (Decode : Int → Int → Int → Int × Int) (dec : Decoder N)
    (f g : Fs N) (o : Object) (options : List OpenOption) (full : List UInt8) (k n : Nat)
    (hfull : Object.Open Decode dec f o [] = some (.ok full, g))
    (hopt : openOptions Decode o.Size options (0, -1) = ((k : Int), (k : Int) + (n : Int)))
    (hkn : k + n ≤ full.length) :
    Object.Open Decode dec f o options = some (.ok ((full.drop k).take n), g) ∧
    ((full.drop k).take n).length = n := by
  refine ⟨?_, by simp; omega⟩
  unfold Object.Open at hfull ⊢
  rw [hopt]
  simp only [openOptions] at hfull ⊢
  cases hs : f.stripPrefix o.remote with
  | error e => simp [hs] at hfull
  | ok remote =>
    simp only [hs] at hfull ⊢
    cases hp : f.findParent dec remote with
    | none => simp [hp] at hfull
    | some res =>
      obtain ⟨r, f1⟩ := res
      cases r with
      | error e => simp [hp] at hfull
      | ok dl =>
        obtain ⟨dir, leaf⟩ := dl
        simp only [hp] at hfull ⊢
        cases ho : dec.Open dir leaf with
        | error e => simp [ho] at hfull
        | ok rc =>
          simp only [ho] at hfull ⊢
          simp at hfull
          obtain ⟨rfl, rfl⟩ := hfull
          by_cases hk : k = 0
          · subst hk
            simp [NewLimitedReadCloser]
          · have hk1 : (0 : Int) < k := by omega
            have hk2 : (k : Int) ≤ rc.length := by omega
            simp [hk1, CopyNDiscard, hk2, NewLimitedReadCloser]
            omega

/-- C4 at the worked example: the file `mnt/a/b.txt` holds `abcd`, and the
range option from 1 to 3 decodes to the offset 1 and the limit 3. -/
theorem Open_range_witness :
    Object.Open sampleDecode sampleDecoder sampleFs ⟨"mnt/a/b.txt".toList, 4, 8⟩
      [.RangeOption 1 3] =
      some (.ok (([97, 98, 99, 100] : List UInt8).drop 1 |>.take 2),
        { sampleFs with dirCache := [("a".toList, 1), ([], 0)] }) ∧
    ((([97, 98, 99, 100] : List UInt8).drop 1).take 2).length = 2 :=
  Open_range sampleDecode sampleDecoder sampleFs
    { sampleFs with dirCache := [("a".toList, 1), ([], 0)] } ⟨"mnt/a/b.txt".toList, 4, 8⟩
    [.RangeOption 1 3] [97, 98, 99, 100] 1 2 (by decide) (by decide) (by decide)

/-! ## The split loop of `_findDir` -/

theorem LastIndexByte_none (s : Str) (c : Char) (h : LastIndexByte s c = none) : c ∉ s := by
  induction s with
  | nil => simp
  | cons x xs ih =>
    rw [LastIndexByte] at h
    cases hx : LastIndexByte xs c with
    | some i => simp [hx] at h
    | none =>
      rw [hx] at h
      by_cases hxc : x = c
      · simp [hxc] at h
      · simp only [List.mem_cons, not_or]
        exact ⟨fun e => hxc e.symm, ih hx⟩

theorem LastIndexByte_some (s : Str) (c : Char) (i : Nat) (h : LastIndexByte s c = some i) :
    ∃ a b, s = a ++ c :: b ∧ a.length = i ∧ c ∉ b := by
  induction s generalizing i with
  | nil => simp [LastIndexByte] at h
  | cons x xs ih =>
    rw [LastIndexByte] at h
    cases hx : LastIndexByte xs c with
    | some j =>
      rw [hx] at h
      simp only [Option.some.injEq] at h
      obtain ⟨a, b, hab, hlen, hb⟩ := ih j hx
      exact ⟨x :: a, b, by rw [hab]; rfl, by simp [hlen, h], hb⟩
    | none =>
      rw [hx] at h
      by_cases hxc : x = c
      · simp only [hxc, if_true, Option.some.injEq] at h
        exact ⟨[], xs, by simp [hxc], by simp [h], LastIndexByte_none xs c hx⟩
      · simp [hxc] at h

theorem splitLoopAux_spec : ∀ (fuel : Nat) (p : Str), p.length < fuel →
    ∃ k, '/' ∉ (splitLoopAux fuel p).2 ∧
      (((splitLoopAux fuel p).1 = [] ∧ p = (splitLoopAux fuel p).2 ++ List.replicate k '/') ∨
       ((splitLoopAux fuel p).2 ≠ [] ∧
        p = (splitLoopAux fuel p).1 ++ '/' :: ((splitLoopAux fuel p).2 ++ List.replicate k '/')))
  | 0, p, h => by omega
  | fuel + 1, p, h => by
    rw [splitLoopAux]
    cases hl : LastIndexByte p '/' with
    | none =>
      exact ⟨0, LastIndexByte_none p '/' hl, Or.inl ⟨rfl, by simp⟩⟩
    | some i =>
      obtain ⟨a, b, hab, hlen, hb⟩ := LastIndexByte_some p '/' i hl
      have htake : p.take i = a := by rw [hab, ← hlen]; simp
      have hdrop : p.drop (i + 1) = b := by
        rw [hab, ← hlen, List.drop_append_eq_append_drop]; simp
      simp only [htake, hdrop]
      by_cases hbn : b = []
      · subst hbn
        have hal : a.length < fuel := by
          have := congrArg List.length hab
          simp at this
          omega
        obtain ⟨k, hk1, hk2⟩ := splitLoopAux_spec fuel a hal
        refine ⟨k + 1, by simpa using hk1, ?_⟩
        simp only [ne_eq, not_true_eq_false, ite_false]
        rcases hk2 with ⟨h1, h2⟩ | ⟨h1, h2⟩
        · left
          refine ⟨h1, ?_⟩
          rw [hab, List.replicate_succ', ← List.append_assoc, ← h2]
        · right
          refine ⟨h1, ?_⟩
          rw [hab, List.replicate_succ', ← List.append_assoc, ← List.cons_append,
            ← List.append_assoc, ← h2]
      · refine ⟨0, by simpa [hbn] using hb, Or.inr ?_⟩
        simp [hbn, hab]

theorem splitLoop_spec (p : Str) :
    ∃ k, '/' ∉ (splitLoop p).2 ∧
      (((splitLoop p).1 = [] ∧ p = (splitLoop p).2 ++ List.replicate k '/') ∨
       ((splitLoop p).2 ≠ [] ∧
        p = (splitLoop p).1 ++ '/' :: ((splitLoop p).2 ++ List.replicate k '/'))) :=
  splitLoopAux_spec (p.length + 1) p (Nat.lt_succ_self _)

theorem splitLoop_length (p : Str) (hp : p ≠ []) : (splitLoop p).1.length < p.length := by
  obtain ⟨k, -, h⟩ := splitLoop_spec p
  rcases h with ⟨h1, -⟩ | ⟨-, h2⟩
  · rw [h1]
    exact List.length_pos.mpr hp
  · have := congrArg List.length h2
    simp at this
    omega

theorem splitLoop_head (p : Str) (hp : p.head? ≠ some '/') : (splitLoop p).1.head? ≠ some '/' := by
  obtain ⟨k, -, h⟩ := splitLoop_spec p
  rcases h with ⟨h1, -⟩ | ⟨-, h2⟩
  · rw [h1]; simp
  · intro hc
    apply hp
    rw [h2]
    cases hd : (splitLoop p).1 with
    | nil => simp
    | cons x xs => rw [hd] at hc; simpa using hc

theorem splitLoop_leaf (p : Str) (hp : p ≠ []) (hh : p.head? ≠ some '/') :
    (splitLoop p).2 ≠ [] := by
  obtain ⟨k, -, h⟩ := splitLoop_spec p
  rcases h with ⟨-, h2⟩ | ⟨h1, -⟩
  · intro hl
    rw [hl, List.nil_append] at h2
    rw [h2] at hp hh
    cases k with
    | zero => simp at hp
    | succ k => simp [List.replicate_succ] at hh
  · exact h1

/-! ## Elements of a path and `path.Clean` -/

theorem splitSlash_ne_nil (p : Str) : splitSlash p ≠ [] := by
  cases p with
  | nil => simp [splitSlash]
  | cons c cs =>
    rw [splitSlash]
    split
    · simp
    · split <;> simp

theorem splitSlash_append_slash (a b : Str) :
    splitSlash (a ++ '/' :: b) = splitSlash a ++ splitSlash b := by
  induction a with
  | nil => simp [splitSlash]
  | cons c cs ih =>
    rw [List.cons_append, splitSlash, splitSlash, ih]
    by_cases hc : c = '/'
    · simp [hc]
    · simp only [hc, if_false]
      cases hs : splitSlash cs with
      | nil => exact absurd hs (splitSlash_ne_nil cs)
      | cons x xs => rfl

theorem splitSlash_of_not_mem (l : Str) (h : '/' ∉ l) : splitSlash l = [l] := by
  induction l with
  | nil => rfl
  | cons c cs ih =>
    simp only [List.mem_cons, not_or] at h
    have hc : c ≠ '/' := fun e => h.1 e.symm
    rw [splitSlash, ih h.2]
    simp [hc]

theorem elems_nil : elems [] = [] := by
  simp [elems, splitSlash]

theorem elems_append_slash (a b : Str) : elems (a ++ '/' :: b) = elems a ++ elems b := by
  simp [elems, splitSlash_append_slash]

theorem elems_cons_slash (p : Str) : elems ('/' :: p) = elems p := by
  have := elems_append_slash [] p
  simpa [elems_nil] using this

theorem elems_of_not_mem (l : Str) (h : '/' ∉ l) (hl : l ≠ []) : elems l = [l] := by
  simp [elems, splitSlash_of_not_mem l h, hl]

theorem elems_replicate (k : Nat) : elems (List.replicate k '/') = [] := by
  induction k with
  | zero => exact elems_nil
  | succ k ih => rw [List.replicate_succ, elems_cons_slash, ih]

theorem elems_append_replicate (l : Str) (k : Nat) :
    elems (l ++ List.replicate k '/') = elems l := by
  cases k with
  | zero => simp
  | succ k => rw [List.replicate_succ, elems_append_slash, elems_replicate, List.append_nil]

theorem foldl_cleanStep_filter (rooted : Bool) (xs : List Str) (acc : List Str) :
    xs.foldl (cleanStep rooted) acc =
      (xs.filter (fun e => decide (e ≠ []))).foldl (cleanStep rooted) acc := by
  induction xs generalizing acc with
  | nil => rfl
  | cons x xs ih =>
    by_cases hx : x = []
    · subst hx
      simp only [List.foldl_cons, ne_eq, not_true_eq_false, decide_False, Bool.false_eq_true,
        not_false_eq_true, List.filter_cons_of_neg]
      rw [← ih]
      simp [cleanStep]
    · simp only [List.foldl_cons, ne_eq, hx, not_false_eq_true, decide_True,
        List.filter_cons_of_pos]
      exact ih _

/-- `path.Clean` reads of a non-empty path only whether it is rooted and its
non-empty elements. -/
theorem Clean_congr (p q : Str) (hp : p ≠ []) (hq : q ≠ [])
    (hroot : decide (p.head? = some '/') = decide (q.head? = some '/'))
    (hel : elems p = elems q) : Clean p = Clean q := by
  unfold Clean
  simp only [hp, hq, if_false]
  rw [foldl_cleanStep_filter _ (splitSlash p), foldl_cleanStep_filter _ (splitSlash q), hroot]
  have : (splitSlash p).filter (fun e => decide (e ≠ [])) =
      (splitSlash q).filter (fun e => decide (e ≠ [])) := hel
  rw [this]

/-- The key under which `_findDir` caches an unrooted path is the cleaned path. -/
theorem Join_splitLoop (t : Str) (hne : t ≠ []) (hh : t.head? ≠ some '/') :
    Join (splitLoop t).1 (splitLoop t).2 = Clean t := by
  have hleaf := splitLoop_leaf t hne hh
  obtain ⟨k, hk, h⟩ := splitLoop_spec t
  rcases h with ⟨h1, h2⟩ | ⟨-, h2⟩
  · have hj : Join (splitLoop t).1 (splitLoop t).2 = Clean (splitLoop t).2 := by
      simp [Join, h1, hleaf]
    rw [hj]
    apply Clean_congr _ _ hleaf hne
    · obtain ⟨c, cs, hl⟩ := List.exists_cons_of_ne_nil hleaf
      conv_rhs => rw [h2, hl]
      rw [hl]
      simp
    · conv_rhs => rw [h2]
      rw [elems_append_replicate]
  · have hd : (splitLoop t).1 ≠ [] := by
      intro hd
      rw [hd] at h2
      rw [h2] at hh
      simp at hh
    have hj : Join (splitLoop t).1 (splitLoop t).2 =
        Clean ((splitLoop t).1 ++ '/' :: (splitLoop t).2) := by
      simp [Join, hd, hleaf]
    rw [hj]
    apply Clean_congr _ _ (by simp) hne
    · obtain ⟨c, cs, hl⟩ := List.exists_cons_of_ne_nil hd
      conv_rhs => rw [h2, hl]
      rw [hl]
      simp
    · conv_rhs => rw [h2]
      rw [elems_append_slash, elems_append_slash, elems_append_replicate]

theorem splitSlash_no_slash (p : Str) : ∀ e ∈ splitSlash p, '/' ∉ e := by
  induction p with
  | nil => simp [splitSlash]
  | cons c cs ih =>
    rw [splitSlash]
    by_cases hc : c = '/'
    · simp only [hc, if_true, List.mem_cons]
      rintro e (rfl | he)
      · simp
      · exact ih e he
    · simp only [hc, if_false]
      cases hs : splitSlash cs with
      | nil => exact absurd hs (splitSlash_ne_nil cs)
      | cons x xs =>
        rw [hs] at ih
        simp only [List.mem_cons]
        rintro e (rfl | he)
        · simp only [List.mem_cons, not_or]
          exact ⟨fun e => hc e.symm, ih x (List.mem_cons_self _ _)⟩
        · exact ih e (List.mem_cons_of_mem _ he)

theorem elems_mem (p e : Str) (h : e ∈ elems p) : e ≠ [] ∧ '/' ∉ e := by
  rw [elems, List.mem_filter] at h
  exact ⟨by simpa using h.2, splitSlash_no_slash p e h.1⟩

theorem joinSlash_cons_cons (e x : Str) (es : List Str) :
    joinSlash (e :: x :: es) = e ++ '/' :: joinSlash (x :: es) := rfl

theorem joinSlash_append_singleton (es : List Str) (x : Str) (hes : es ≠ []) :
    joinSlash (es ++ [x]) = joinSlash es ++ '/' :: x := by
  induction es with
  | nil => exact absurd rfl hes
  | cons e es ih =>
    cases es with
    | nil => rfl
    | cons y ys =>
      rw [List.cons_append, List.cons_append, joinSlash_cons_cons, ← List.cons_append,
        ih (by simp), joinSlash_cons_cons]
      simp

theorem elems_joinSlash (es : List Str) (h : ∀ e ∈ es, e ≠ [] ∧ '/' ∉ e) :
    elems (joinSlash es) = es := by
  induction es with
  | nil => exact elems_nil
  | cons e es ih =>
    have he := h e (List.mem_cons_self _ _)
    cases es with
    | nil => exact elems_of_not_mem e he.2 he.1
    | cons y ys =>
      rw [joinSlash_cons_cons, elems_append_slash, elems_of_not_mem e he.2 he.1,
        ih (fun x hx => h x (List.mem_cons_of_mem _ hx))]
      rfl

theorem joinSlash_ne_nil (es : List Str) (hes : es ≠ []) (h : ∀ e ∈ es, e ≠ []) :
    joinSlash es ≠ [] := by
  cases es with
  | nil => exact absurd rfl hes
  | cons e es =>
    have he := h e (List.mem_cons_self _ _)
    cases es with
    | nil => exact he
    | cons y ys => rw [joinSlash_cons_cons]; simp [he]

theorem joinSlash_head (es : List Str) (h : ∀ e ∈ es, e ≠ [] ∧ '/' ∉ e) :
    (joinSlash es).head? ≠ some '/' := by
  cases es with
  | nil => simp [joinSlash]
  | cons e es =>
    have he := h e (List.mem_cons_self _ _)
    obtain ⟨c, cs, rfl⟩ := List.exists_cons_of_ne_nil he.1
    have hc : c ≠ '/' := by
      intro hc
      apply he.2
      simp [hc]
    cases es with
    | nil => simpa [joinSlash] using hc
    | cons y ys => rw [joinSlash_cons_cons]; simpa using hc

theorem getLast?_not_slash (x : Str) (hx : '/' ∉ x) : x.getLast? ≠ some '/' := by
  intro h
  exact hx (List.mem_of_getLast?_eq_some h)

theorem joinSlash_getLast (es : List Str) (h : ∀ e ∈ es, e ≠ [] ∧ '/' ∉ e) :
    (joinSlash es).getLast? ≠ some '/' := by
  induction es with
  | nil => simp [joinSlash]
  | cons e es ih =>
    have he := h e (List.mem_cons_self _ _)
    cases es with
    | nil => exact getLast?_not_slash e he.2
    | cons y ys =>
      have hy := h y (List.mem_cons_of_mem _ (List.mem_cons_self _ _))
      have hne : joinSlash (y :: ys) ≠ [] :=
        joinSlash_ne_nil _ (by simp) (fun x hx => (h x (List.mem_cons_of_mem _ hx)).1)
      rw [joinSlash_cons_cons, List.getLast?_append_of_ne_nil _ (by simp)]
      obtain ⟨c, cs, hcs⟩ := List.exists_cons_of_ne_nil hne
      rw [hcs, List.getLast?_cons_cons, ← hcs]
      exact ih (fun x hx => h x (List.mem_cons_of_mem _ hx))

theorem cleanStep_mem (rooted : Bool) (out : List Str) (e x : Str)
    (hx : x ∈ cleanStep rooted out e) : x ∈ out ∨ (x = e ∧ e ≠ []) := by
  unfold cleanStep at hx
  split at hx
  · exact Or.inl hx
  · rename_i hne
    simp only [not_or] at hne
    split at hx
    · split at hx
      · split at hx
        · simp at hx
        · simp only [List.mem_singleton] at hx
          exact Or.inr ⟨hx, hne.1⟩
      · split at hx
        · split at hx
          · exact Or.inl hx
          · rcases List.mem_cons.mp hx with h | h
            · exact Or.inr ⟨h, hne.1⟩
            · exact Or.inl h
        · exact Or.inl (List.mem_cons_of_mem _ hx)
    · rcases List.mem_cons.mp hx with h | h
      · exact Or.inr ⟨h, hne.1⟩
      · exact Or.inl h

theorem foldl_cleanStep_mem (rooted : Bool) (es : List Str) : ∀ (out : List Str) (x : Str),
    x ∈ es.foldl (cleanStep rooted) out → x ∈ out ∨ (x ∈ es ∧ x ≠ []) := by
  induction es with
  | nil => intro out x hx; exact Or.inl hx
  | cons e es ih =>
    intro out x hx
    rw [List.foldl_cons] at hx
    rcases ih _ x hx with h | h
    · rcases cleanStep_mem rooted out e x h with h2 | h2
      · exact Or.inl h2
      · exact Or.inr ⟨by rw [h2.1]; exact List.mem_cons_self _ _, by rw [h2.1]; exact h2.2⟩
    · exact Or.inr ⟨List.mem_cons_of_mem _ h.1, h.2⟩

/-- The result of `path.Clean` on an unrooted path is the separator-joined
list of its own non-empty elements. -/
theorem Clean_joined (t : Str) (hne : t ≠ []) (hh : t.head? ≠ some '/') :
    joinSlash (elems (Clean t)) = Clean t := by
  unfold Clean
  have hr : decide (t.head? = some '/') = false := by simpa using hh
  simp only [hne, if_false, hr, Bool.false_eq_true]
  split
  · decide
  · rw [elems_joinSlash]
    intro e he
    rw [List.mem_reverse] at he
    rcases foldl_cleanStep_mem false (splitSlash t) [] e he with h | h
    · simp at h
    · exact ⟨h.2, splitSlash_no_slash t e h.1⟩

theorem foldl_cleanStep_nodots (rooted : Bool) (es : List Str)
    (h : ∀ e ∈ es, e ≠ [] ∧ e ≠ ['.'] ∧ e ≠ ['.', '.']) :
    ∀ out, es.foldl (cleanStep rooted) out = es.reverse ++ out := by
  induction es with
  | nil => intro out; rfl
  | cons e es ih =>
    intro out
    have he := h e (List.mem_cons_self _ _)
    rw [List.foldl_cons, ih (fun x hx => h x (List.mem_cons_of_mem _ hx))]
    simp [cleanStep, he.1, he.2.1, he.2.2]

theorem NoDots_mem (p e : Str) (hp : NoDots p) (he : e ∈ elems p) :
    e ≠ [] ∧ e ≠ ['.'] ∧ e ≠ ['.', '.'] :=
  ⟨(elems_mem p e he).1, fun h => hp.1 (h ▸ he), fun h => hp.2 (h ▸ he)⟩

/-- `path.Clean` of a non-empty path without `.` and `..` elements. -/
theorem Clean_nodots (t : Str) (hne : t ≠ []) (hd : NoDots t) :
    Clean t =
      if t.head? = some '/' then '/' :: joinSlash (elems t)
      else if joinSlash (elems t) = [] then ['.'] else joinSlash (elems t) := by
  unfold Clean
  simp only [hne, if_false]
  rw [foldl_cleanStep_filter]
  have hel : (splitSlash t).filter (fun e => decide (e ≠ [])) = elems t := rfl
  rw [hel, foldl_cleanStep_nodots _ _ (fun e he => NoDots_mem t e hd he)]
  simp

/-! ## The directory cache -/

theorem Clean_ne_nil (p : Str) : Clean p ≠ [] := by
  unfold Clean
  by_cases hp : p = []
  · simp [hp]
  · simp only [hp, if_false]
    split
    · simp
    · split <;> simp_all

theorem Join_ne_nil (a b : Str) (hb : b ≠ []) : Join a b ≠ [] := by
  unfold Join
  simp only [hb, and_false, if_false]
  split
  · exact Clean_ne_nil _
  · exact Clean_ne_nil _

theorem lookup_append_of_ne {N : Type} (k : Str) (ins c : List (Str × N))
    (h : ∀ kv ∈ ins, kv.1 ≠ k) : (ins ++ c).lookup k = c.lookup k := by
  induction ins with
  | nil => rfl
  | cons x xs ih =>
    obtain ⟨a, b⟩ := x
    have hx : a ≠ k := h (a, b) (List.mem_cons_self _ _)
    have hx2 : (k == a) = false := by simpa using fun e => hx e.symm
    rw [List.cons_append, List.lookup_cons, hx2]
    exact ih (fun kv hkv => h kv (List.mem_cons_of_mem _ hkv))

theorem findDirAux_succ {N : Type} (dec : Decoder N) (fuel : Nat) (f : Fs N) (p : Str) :
    Fs._findDir dec (fuel + 1) f p =
      match f.dirCache.lookup p with
      | some dir => some (.ok dir, f)
      | none =>
        match Fs._findDir dec fuel f (splitLoop p).1 with
        | none => none
        | some (.error err, f) => some (.error err, f)
        | some (.ok parent, f) =>
          match dec.Sub parent (splitLoop p).2 with
          | .error err =>
            if errorsIs err .ErrNotExist then some (.error .ErrorIsFile, f)
            else some (.error err, f)
          | .ok .foreign =>
            some (.error (.errorf "internal error: dir wasn't a *squashfs.FS"), f)
          | .ok (.squashFS dir) =>
            some (.ok dir,
              { f with dirCache := (Join (splitLoop p).1 (splitLoop p).2, dir) :: f.dirCache }) := by
  rfl

theorem findDirAux_hit {N : Type} (dec : Decoder N) (fuel : Nat) (f : Fs N) (p : Str) (dir : N)
    (h : f.dirCache.lookup p = some dir) : Fs._findDir dec (fuel + 1) f p = some (.ok dir, f) := by
  rw [findDirAux_succ, h]

theorem findDirAux_nil_miss {N : Type} (dec : Decoder N) (f : Fs N)
    (h : f.dirCache.lookup [] = none) : ∀ fuel, Fs._findDir dec fuel f [] = none
  | 0 => rfl
  | fuel + 1 => by
    rw [findDirAux_succ, h]
    have h2 : (splitLoop ([] : Str)).1 = [] := rfl
    simp only [h2, findDirAux_nil_miss dec f h fuel]

/-- A call of `_findDir` on an unrooted path that returns only adds bindings
in front of the cache, all under non-empty keys that are the separator-joined
list of their elements, and changes no other field. -/
theorem findDirAux_frame {N : Type} (dec : Decoder N) : ∀ (fuel : Nat) (f g : Fs N) (p : Str)
    (r : Except Error N), p.head? ≠ some '/' → Fs._findDir dec fuel f p = some (r, g) →
    ∃ ins, g = { f with dirCache := ins ++ f.dirCache } ∧ ∀ kv ∈ ins, kv.1 ≠ [] ∧ joinSlash (elems kv.1) = kv.1
  | 0, f, g, p, r, _, h => by simp [Fs._findDir] at h
  | fuel + 1, f, g, p, r, hp, h => by
    have h0 := h
    rw [findDirAux_succ] at h
    cases hl : f.dirCache.lookup p with
    | some dir =>
      simp only [hl, Option.some.injEq, Prod.mk.injEq] at h
      exact ⟨[], by simp [← h.2], by simp⟩
    | none =>
      simp only [hl] at h
      have hpne : p ≠ [] := by
        rintro rfl
        rw [findDirAux_nil_miss dec f hl] at h0
        simp at h0
      cases hrec : Fs._findDir dec fuel f (splitLoop p).1 with
      | none => simp [hrec] at h
      | some res =>
        obtain ⟨r1, f1⟩ := res
        obtain ⟨ins, hf1, hins⟩ := findDirAux_frame dec fuel f f1 _ r1 (splitLoop_head p hp) hrec
        simp only [hrec] at h
        cases r1 with
        | error e =>
          simp only [Option.some.injEq, Prod.mk.injEq] at h
          exact ⟨ins, by rw [← h.2, hf1], hins⟩
        | ok parent =>
          simp only at h
          cases hsub : dec.Sub parent (splitLoop p).2 with
          | error e =>
            simp only [hsub] at h
            split at h <;>
            · simp only [Option.some.injEq, Prod.mk.injEq] at h
              exact ⟨ins, by rw [← h.2, hf1], hins⟩
          | ok sub =>
            cases sub with
            | foreign =>
              simp only [hsub, Option.some.injEq, Prod.mk.injEq] at h
              exact ⟨ins, by rw [← h.2, hf1], hins⟩
            | squashFS dir =>
              simp only [hsub, Option.some.injEq, Prod.mk.injEq] at h
              refine ⟨(Join (splitLoop p).1 (splitLoop p).2, dir) :: ins, ?_, ?_⟩
              · rw [← h.2, hf1]; rfl
              · intro kv hkv
                rcases List.mem_cons.mp hkv with rfl | hkv
                · exact ⟨Join_ne_nil _ _ (splitLoop_leaf p hpne hp), by
                    rw [Join_splitLoop p hpne hp]; exact Clean_joined p hpne hp⟩
                · exact hins kv hkv

/-- More fuel does not change the result of a call that returns. -/
theorem findDirAux_mono {N : Type} (dec : Decoder N) : ∀ (fuel : Nat) (f : Fs N) (p : Str)
    (x : Except Error N × Fs N), Fs._findDir dec fuel f p = some x →
    Fs._findDir dec (fuel + 1) f p = some x
  | 0, f, p, x, h => by simp [Fs._findDir] at h
  | fuel + 1, f, p, x, h => by
    rw [findDirAux_succ] at h ⊢
    cases hl : f.dirCache.lookup p with
    | some dir => simpa [hl] using h
    | none =>
      simp only [hl] at h ⊢
      cases hrec : Fs._findDir dec fuel f (splitLoop p).1 with
      | none => simp [hrec] at h
      | some res =>
        rw [findDirAux_mono dec fuel f _ res hrec]
        simpa [hrec] using h

theorem findDirAux_mono_le {N : Type} (dec : Decoder N) (fuel fuel2 : Nat) (f : Fs N) (p : Str)
    (x : Except Error N × Fs N) (h : Fs._findDir dec fuel f p = some x) (hle : fuel ≤ fuel2) :
    Fs._findDir dec fuel2 f p = some x := by
  induction hle with
  | refl => exact h
  | step _ ih => exact findDirAux_mono dec _ f p x ih

/-- With the empty path cached, `_findDir` returns on every path once the fuel
exceeds the length of the path. -/
theorem findDirAux_total {N : Type} (dec : Decoder N) : ∀ (fuel : Nat) (f : Fs N) (p : Str)
    (root : N), f.dirCache.lookup [] = some root → p.length < fuel →
    ∃ x, Fs._findDir dec fuel f p = some x
  | 0, f, p, root, _, h => by omega
  | fuel + 1, f, p, root, hroot, hfuel => by
    rw [findDirAux_succ]
    cases hl : f.dirCache.lookup p with
    | some dir => exact ⟨_, rfl⟩
    | none =>
      have hpne : p ≠ [] := by
        rintro rfl
        rw [hroot] at hl
        simp at hl
      have hlen := splitLoop_length p hpne
      obtain ⟨x, hx⟩ := findDirAux_total dec fuel f (splitLoop p).1 root hroot (by omega)
      obtain ⟨r1, f1⟩ := x
      simp only [hx]
      cases r1 with
      | error e => exact ⟨_, rfl⟩
      | ok parent =>
        simp only
        cases hsub : dec.Sub parent (splitLoop p).2 with
        | error e =>
          simp only
          split <;> exact ⟨_, rfl⟩
        | ok sub =>
          cases sub <;> exact ⟨_, rfl⟩

/-- The effect of a call on the `Fs`: bindings with non-empty keys are added in
front of the cache and nothing else changes. -/
theorem findDir_frame {N : Type} (dec : Decoder N) (f g : Fs N) (p : Str) (r : Except Error N)
    (h : f.findDir dec p = some (r, g)) :
    ∃ ins, g = { f with dirCache := ins ++ f.dirCache } ∧ ∀ kv ∈ ins, kv.1 ≠ [] ∧ joinSlash (elems kv.1) = kv.1 :=
  findDirAux_frame dec _ f g _ r (Trim_head p) h

theorem findParent_frame {N : Type} (dec : Decoder N) (f g : Fs N) (name : Str)
    (r : Except Error (N × Str)) (h : f.findParent dec name = some (r, g)) :
    ∃ ins, g = { f with dirCache := ins ++ f.dirCache } ∧ ∀ kv ∈ ins, kv.1 ≠ [] ∧ joinSlash (elems kv.1) = kv.1 := by
  unfold Fs.findParent at h
  simp only at h
  cases hd : f.findDir dec (Split (Trim name ['/'])).1 with
  | none => simp [hd] at h
  | some res =>
    obtain ⟨r1, f1⟩ := res
    have hfr := findDir_frame dec f f1 _ r1 hd
    cases r1 <;>
    · simp only [hd, Option.some.injEq, Prod.mk.injEq] at h
      rw [← h.2]
      exact hfr

theorem List_frame {N : Type} (dec : Decoder N) (f g : Fs N) (dir : Str)
    (r : Except Error DirEntries) (h : f.List dec dir = some (r, g)) :
    ∃ ins, g = { f with dirCache := ins ++ f.dirCache } ∧ ∀ kv ∈ ins, kv.1 ≠ [] ∧ joinSlash (elems kv.1) = kv.1 := by
  unfold Fs.List at h
  cases hs : f.stripPrefix dir with
  | error e =>
    simp only [hs, Option.some.injEq, Prod.mk.injEq] at h
    exact ⟨[], by simp [← h.2], by simp⟩
  | ok d =>
    simp only [hs] at h
    cases hd : f.findDir dec d with
    | none => simp [hd] at h
    | some res =>
      obtain ⟨r1, f1⟩ := res
      have hfr := findDir_frame dec f f1 _ r1 hd
      cases r1 with
      | error e =>
        simp only [hd, Option.some.injEq, Prod.mk.injEq] at h
        rw [← h.2]
        exact hfr
      | ok dirFS =>
        simp only [hd] at h
        cases hrd : dec.ReadDir dirFS <;>
        · simp only [hrd, Option.some.injEq, Prod.mk.injEq] at h
          rw [← h.2]
          exact hfr

theorem Open_frame {N : Type} (Decode : Int → Int → Int → Int × Int) (dec : Decoder N)
    (f g : Fs N) (o : Object) (options : List OpenOption) (r : Except Error (List UInt8))
    (h : Object.Open Decode dec f o options = some (r, g)) :
    ∃ ins, g = { f with dirCache := ins ++ f.dirCache } ∧ ∀ kv ∈ ins, kv.1 ≠ [] ∧ joinSlash (elems kv.1) = kv.1 := by
  unfold Object.Open at h
  simp only at h
  cases hs : f.stripPrefix o.remote with
  | error e =>
    simp only [hs, Option.some.injEq, Prod.mk.injEq] at h
    exact ⟨[], by simp [← h.2], by simp⟩
  | ok remote =>
    simp only [hs] at h
    cases hd : f.findParent dec remote with
    | none => simp [hd] at h
    | some res =>
      obtain ⟨r1, f1⟩ := res
      have hfr := findParent_frame dec f f1 _ r1 hd
      cases r1 with
      | error e =>
        simp only [hd, Option.some.injEq, Prod.mk.injEq] at h
        rw [← h.2]
        exact hfr
      | ok dl =>
        obtain ⟨d, l⟩ := dl
        simp only [hd] at h
        have hg : g = f1 := by
          cases ho : dec.Open d l with
          | error e =>
            simp only [ho, Option.some.injEq, Prod.mk.injEq] at h
            exact h.2.symm
          | ok rc =>
            simp only [ho] at h
            split at h
            · simp only [Option.some.injEq, Prod.mk.injEq] at h
              exact h.2.symm
            · split at h <;>
              · simp only [Option.some.injEq, Prod.mk.injEq] at h
                exact h.2.symm
        rw [hg]
        exact hfr

theorem Step_frame {N : Type} (P : Decoder N → Prop) (f g : Fs N) (h : Step P f g) :
    ∃ ins, g = { f with dirCache := ins ++ f.dirCache } ∧ ∀ kv ∈ ins, kv.1 ≠ [] ∧ joinSlash (elems kv.1) = kv.1 := by
  cases h with
  | findDir dec _ p r _ _ h => exact findDir_frame dec f g p r h
  | findParent dec _ p r _ _ h => exact findParent_frame dec f g p r h
  | list dec _ p r _ _ h => exact List_frame dec f g p r h
  | openObject Decode dec _ o options r _ _ h => exact Open_frame Decode dec f g o options r h
  | newObject => exact ⟨[], rfl, by simp⟩
  | mkdir => exact ⟨[], rfl, by simp⟩
  | rmdir => exact ⟨[], rfl, by simp⟩
  | put => exact ⟨[], rfl, by simp⟩
  | setModTime => exact ⟨[], rfl, by simp⟩
  | update => exact ⟨[], rfl, by simp⟩
  | remove => exact ⟨[], rfl, by simp⟩

theorem Steps_frame {N : Type} (P : Decoder N → Prop) (f g : Fs N) (h : Steps P f g) :
    ∃ ins, g = { f with dirCache := ins ++ f.dirCache } ∧ ∀ kv ∈ ins, kv.1 ≠ [] ∧ joinSlash (elems kv.1) = kv.1 := by
  induction h with
  | refl => exact ⟨[], rfl, by simp⟩
  | tail _ hstep ih =>
    obtain ⟨ins1, h1, hk1⟩ := ih
    obtain ⟨ins2, h2, hk2⟩ := Step_frame P _ _ hstep
    refine ⟨ins2 ++ ins1, ?_, ?_⟩
    · rw [h2, h1]; simp
    · intro kv hkv
      rcases List.mem_append.mp hkv with h | h
      · exact hk2 kv h
      · exact hk1 kv h

/-- What `New` returns together with an `Fs`: a cache that holds the empty
path only, no index `dt`, and the prefix with its separator. -/
theorem New_spec {N : Type} (st : Storage N) (dec : Decoder N) (remote pfx root : Str)
    (f : Fs N) (err : Option Error) (h : New st dec remote pfx root = some (some f, err)) :
    (∃ rootDir, f.dirCache = [([], rootDir)]) ∧ f.dt = none ∧ f.mountPrefix = pfx ∧
    f.prefixSlash = (if pfx = [] then [] else pfx ++ ['/']) := by
  unfold New at h
  cases h1 : st.Stat remote with
  | error e => simp [h1] at h
  | ok u1 =>
    simp only [h1] at h
    cases h2 : st.OpenNode remote with
    | error e => simp [h2] at h
    | ok u2 =>
      simp only [h2] at h
      cases h3 : st.NewReader remote with
      | error e => simp [h3] at h
      | ok rdFS =>
        simp only [h3] at h
        by_cases hr : root = []
        · simp only [hr, if_true, Option.some.injEq, Prod.mk.injEq] at h
          rw [← h.1]
          exact ⟨⟨rdFS, rfl⟩, rfl, rfl, rfl⟩
        · simp only [hr, if_false] at h
          split at h
          · simp at h
          · rename_i dir f1 hfd
            obtain ⟨ins, hf1, -⟩ := findDir_frame dec _ f1 _ _ hfd
            simp only [Option.some.injEq, Prod.mk.injEq] at h
            rw [← h.1, hf1]
            exact ⟨⟨dir, rfl⟩, rfl, rfl, rfl⟩
          · rename_i e f1 hfd
            obtain ⟨ins, hf1, -⟩ := findDir_frame dec _ f1 _ _ hfd
            split at h
            · simp at h
            · split at h
              · simp at h
              · simp at h
              · rename_i dir leaf f2 hfp
                obtain ⟨ins2, hf2, -⟩ := findParent_frame dec _ f2 _ _ hfp
                simp only [Option.some.injEq, Prod.mk.injEq] at h
                rw [← h.1, hf2, hf1]
                exact ⟨⟨dir, rfl⟩, rfl, rfl, rfl⟩

/-! ## The index of `NewObject` -/

/-- C10: on every `Fs` that `New` returned, after any sequence of calls of
the operations, the index `dt` is nil and `NewObject` fails with
`fs.ErrorObjectNotFound` for every remote and every behaviour of the index
lookup. -/
theorem NewObject_always_not_found {N : Type} (st : Storage N) (dec : Decoder N)
    (remote pfx root : Str) (f0 f : Fs N) (err : Option Error) (P : Decoder N → Prop)
    (Find : DirTree → Str → Option DirEntry) (name : Str)
    (hnew : New st dec remote pfx root = some (some f0, err)) (hsteps : Steps P f0 f) :
    f.dt = none ∧ f.NewObject Find name = .error .ErrorObjectNotFound := by
  obtain ⟨-, hdt, -, -⟩ := New_spec st dec remote pfx root f0 err hnew
  obtain ⟨ins, hf, -⟩ := Steps_frame P f0 f hsteps
  have h : f.dt = none := by rw [hf]; exact hdt
  exact ⟨h, by simp [Fs.NewObject, h]⟩

/-- C10 on the small archive: after `List` of `mnt/a` has returned the file
`mnt/a/b.txt`, `NewObject` of that remote fails. -/
theorem NewObject_always_not_found_witness :
    ({ sampleFs with dirCache := [("a".toList, 1), ([], 0)] } : Fs Nat).dt = none ∧
    Fs.NewObject (fun _ _ => none) { sampleFs with dirCache := [("a".toList, 1), ([], 0)] }
      "mnt/a/b.txt".toList = .error .ErrorObjectNotFound :=
  NewObject_always_not_found sampleStorage sampleDecoder "x.sqfs".toList "mnt".toList []
    sampleFs { sampleFs with dirCache := [("a".toList, 1), ([], 0)] } none anyDecoder
    (fun _ _ => none) "mnt/a/b.txt".toList (by decide)
    (Relation.ReflTransGen.single
      (Step.list sampleDecoder sampleFs "mnt/a".toList
        (.ok [.object ⟨"mnt/a/b.txt".toList, 4, 8⟩, .dir "mnt/a/empty".toList 9]) _
        trivial (by decide)))

/-! ## The root entry of the cache -/

theorem findDir_total {N : Type} (dec : Decoder N) (f : Fs N) (p : Str) (root : N)
    (hroot : f.dirCache.lookup [] = some root) :
    ∃ r ins, f.findDir dec p = some (r, { f with dirCache := ins ++ f.dirCache }) ∧
      (∀ kv ∈ ins, kv.1 ≠ []) ∧
      ∀ fuel, (Trim p ['/']).length < fuel →
        Fs._findDir dec fuel f (Trim p ['/']) = f.findDir dec p := by
  obtain ⟨x, hx⟩ := findDirAux_total dec ((Trim p ['/']).length + 1) f (Trim p ['/']) root hroot
    (Nat.lt_succ_self _)
  obtain ⟨r, g⟩ := x
  have hx2 : f.findDir dec p = some (r, g) := hx
  obtain ⟨ins, hg, hins⟩ := findDir_frame dec f g p r hx2
  refine ⟨r, ins, by rw [hx2, hg], fun kv hkv => (hins kv hkv).1, ?_⟩
  intro fuel hfuel
  rw [hx2]
  exact findDirAux_mono_le dec _ fuel f _ _ hx (by omega)

/-- C9: in every state reached from an `Fs` that `New` returned by any
sequence of calls, the cache maps the empty path to the root directory that
`New` configured; `findDir` of the empty path and of `/` return that directory
for every decoder and leave the state as it is; and `findDir` of every path
returns, adds only bindings with non-empty keys in front of the cache, and
gives the same result with any larger fuel; the recursion of `_findDir` itself
ends on every path within as many levels as the path is long, plus one. -/
theorem root_entry_invariant {N : Type} (st : Storage N) (dec0 : Decoder N)
    (remote pfx root : Str) (f0 f : Fs N) (err : Option Error) (P : Decoder N → Prop)
    (hnew : New st dec0 remote pfx root = some (some f0, err)) (hsteps : Steps P f0 f) :
    ∃ rootDir, f0.dirCache = [([], rootDir)] ∧ f.dirCache.lookup [] = some rootDir ∧
      (∀ dec : Decoder N, f.findDir dec [] = some (.ok rootDir, f)) ∧
      (∀ dec : Decoder N, f.findDir dec ['/'] = some (.ok rootDir, f)) ∧
      (∀ (dec : Decoder N) (p : Str), ∃ r ins,
        f.findDir dec p = some (r, { f with dirCache := ins ++ f.dirCache }) ∧
        (∀ kv ∈ ins, kv.1 ≠ []) ∧
        ∀ fuel, (Trim p ['/']).length < fuel →
          Fs._findDir dec fuel f (Trim p ['/']) = f.findDir dec p) ∧
      (∀ (dec : Decoder N) (p : Str), ∃ x, Fs._findDir dec (p.length + 1) f p = some x) := by
  obtain ⟨⟨rootDir, hc⟩, -, -, -⟩ := New_spec st dec0 remote pfx root f0 err hnew
  obtain ⟨ins, hf, hins⟩ := Steps_frame P f0 f hsteps
  have hroot : f.dirCache.lookup [] = some rootDir := by
    rw [hf]
    show (ins ++ f0.dirCache).lookup [] = some rootDir
    rw [lookup_append_of_ne [] ins _ (fun kv hkv => (hins kv hkv).1), hc]
    rfl
  refine ⟨rootDir, hc, hroot, ?_, ?_, ?_, ?_⟩
  · intro dec
    exact findDirAux_hit dec 0 f [] rootDir hroot
  · intro dec
    exact findDirAux_hit dec 0 f [] rootDir hroot
  · intro dec p
    exact findDir_total dec f p rootDir hroot
  · intro dec p
    exact findDirAux_total dec _ f p rootDir hroot (Nat.lt_succ_self _)

/-- C9 on the small archive, in the state after `findDir` of `a/empty`. -/
theorem root_entry_invariant_witness :
    ∃ rootDir, sampleFs.dirCache = [([], rootDir)] ∧
      ({ sampleFs with dirCache := [("a/empty".toList, 2), ("a".toList, 1), ([], 0)] } :
        Fs Nat).dirCache.lookup [] = some rootDir ∧
      (∀ dec : Decoder Nat,
        Fs.findDir dec { sampleFs with dirCache := [("a/empty".toList, 2), ("a".toList, 1), ([], 0)] } []
          = some (.ok rootDir,
            { sampleFs with dirCache := [("a/empty".toList, 2), ("a".toList, 1), ([], 0)] })) ∧
      (∀ dec : Decoder Nat,
        Fs.findDir dec { sampleFs with dirCache := [("a/empty".toList, 2), ("a".toList, 1), ([], 0)] } ['/']
          = some (.ok rootDir,
            { sampleFs with dirCache := [("a/empty".toList, 2), ("a".toList, 1), ([], 0)] })) ∧
      (∀ (dec : Decoder Nat) (p : Str), ∃ r ins,
        Fs.findDir dec { sampleFs with dirCache := [("a/empty".toList, 2), ("a".toList, 1), ([], 0)] } p
          = some (r, { sampleFs with dirCache :=
              ins ++ [("a/empty".toList, 2), ("a".toList, 1), ([], 0)] }) ∧
        (∀ kv ∈ ins, kv.1 ≠ []) ∧
        ∀ fuel, (Trim p ['/']).length < fuel →
          Fs._findDir dec fuel
            { sampleFs with dirCache := [("a/empty".toList, 2), ("a".toList, 1), ([], 0)] }
            (Trim p ['/']) =
          Fs.findDir dec
            { sampleFs with dirCache := [("a/empty".toList, 2), ("a".toList, 1), ([], 0)] } p) ∧
      (∀ (dec : Decoder Nat) (p : Str), ∃ x,
        Fs._findDir dec (p.length + 1)
          { sampleFs with dirCache := [("a/empty".toList, 2), ("a".toList, 1), ([], 0)] } p
          = some x) :=
  root_entry_invariant sampleStorage sampleDecoder "x.sqfs".toList "mnt".toList []
    sampleFs { sampleFs with dirCache := [("a/empty".toList, 2), ("a".toList, 1), ([], 0)] } none
    anyDecoder (by decide)
    (Relation.ReflTransGen.single
      (Step.findDir sampleDecoder sampleFs "a/empty".toList (.ok 2) _ trivial (by decide)))

/-! ## Repeated resolution -/

/-- After a successful `_findDir` of an unrooted path `t`, the cache maps the
cleaned `t` to the directory returned, unless the call was a cache hit. -/
theorem findDirAux_caches {N : Type} (dec : Decoder N) (fuel : Nat) (f g : Fs N) (t : Str)
    (n : N) (hh : t.head? ≠ some '/') (h : Fs._findDir dec fuel f t = some (.ok n, g)) :
    (f.dirCache.lookup t = some n ∧ g = f) ∨
    (f.dirCache.lookup t = none ∧ t ≠ [] ∧ g.dirCache.lookup (Clean t) = some n) := by
  cases fuel with
  | zero => simp [Fs._findDir] at h
  | succ fuel =>
    have h0 := h
    rw [findDirAux_succ] at h
    cases hl : f.dirCache.lookup t with
    | some dir =>
      simp only [hl, Option.some.injEq, Prod.mk.injEq, Except.ok.injEq] at h
      exact Or.inl ⟨by rw [h.1], h.2.symm⟩
    | none =>
      right
      simp only [hl] at h
      have hne : t ≠ [] := by
        rintro rfl
        rw [findDirAux_nil_miss dec f hl] at h0
        simp at h0
      refine ⟨rfl, hne, ?_⟩
      cases hrec : Fs._findDir dec fuel f (splitLoop t).1 with
      | none => simp [hrec] at h
      | some res =>
        obtain ⟨r1, f1⟩ := res
        simp only [hrec] at h
        cases r1 with
        | error e => simp at h
        | ok parent =>
          simp only at h
          cases hsub : dec.Sub parent (splitLoop t).2 with
          | error e =>
            simp only [hsub] at h
            split at h <;> simp at h
          | ok sub =>
            cases sub with
            | foreign => simp [hsub] at h
            | squashFS dir =>
              simp only [hsub, Option.some.injEq, Prod.mk.injEq, Except.ok.injEq] at h
              rw [← h.2, ← h.1, Join_splitLoop t hne hh]
              simp

/-- C2, counterexample: on the small archive `findDir` of `a//empty` succeeds
with the directory `2` and caches it under `a/empty`; the same call again, with
a decoder that now fails, finds no binding for `a//empty`, asks the decoder and
fails; and with a decoder that hands out new handles it binds `a/empty` again,
so that `findDir` of `a/empty` no longer returns the directory `2`. -/
theorem findDir_doubled_separator_not_cached :
    sampleFs.findDir sampleDecoder "a//empty".toList =
      some (.ok 2, { sampleFs with
        dirCache := [("a/empty".toList, 2), ("a".toList, 1), ([], 0)] }) ∧
    Fs.findDir failingDecoder
      { sampleFs with dirCache := [("a/empty".toList, 2), ("a".toList, 1), ([], 0)] }
      "a//empty".toList =
      some (.error (.other "read error"), { sampleFs with
        dirCache := [("a/empty".toList, 2), ("a".toList, 1), ([], 0)] }) ∧
    Fs.findDir rehandlingDecoder
      { sampleFs with dirCache := [("a/empty".toList, 2), ("a".toList, 1), ([], 0)] }
      "a//empty".toList =
      some (.ok 12, { sampleFs with
        dirCache := [("a/empty".toList, 12), ("a".toList, 11), ("a/empty".toList, 2),
          ("a".toList, 1), ([], 0)] }) ∧
    Fs.findDir failingDecoder
      { sampleFs with
        dirCache := [("a/empty".toList, 12), ("a".toList, 11), ("a/empty".toList, 2),
          ("a".toList, 1), ([], 0)] }
      "a/empty".toList =
      some (.ok 12, { sampleFs with
        dirCache := [("a/empty".toList, 12), ("a".toList, 11), ("a/empty".toList, 2),
          ("a".toList, 1), ([], 0)] }) := by
  decide

/-- C2, amended: for every `Fs` state and every directory path `d` whose
trimmed form is empty or unchanged by `path.Clean`, when `findDir` of `d`
succeeds with the directory `n`, the cache of the state it leaves maps the
trimmed `d` to `n`; and in that state, as in every later state in which the
cache has only gained bindings of other keys, `findDir` of `d` returns `n` and
leaves the state as it is, for every decoder, a failing one included. -/
theorem findDir_cached {N : Type} (dec : Decoder N) (f g : Fs N) (d : Str) (n : N)
    (hclean : Trim d ['/'] = [] ∨ Clean (Trim d ['/']) = Trim d ['/'])
    (h : f.findDir dec d = some (.ok n, g)) :
    g.dirCache.lookup (Trim d ['/']) = some n ∧
    ∀ (dec2 : Decoder N) (ins : List (Str × N)), (∀ kv ∈ ins, kv.1 ≠ Trim d ['/']) →
      Fs.findDir dec2 { g with dirCache := ins ++ g.dirCache } d =
        some (.ok n, { g with dirCache := ins ++ g.dirCache }) := by
  have hlook : g.dirCache.lookup (Trim d ['/']) = some n := by
    rcases findDirAux_caches dec _ f g _ n (Trim_head d) h with ⟨h1, h2⟩ | ⟨-, hne, h2⟩
    · rw [h2]; exact h1
    · rcases hclean with hc | hc
      · exact absurd hc hne
      · rw [hc] at h2; exact h2
  refine ⟨hlook, ?_⟩
  intro dec2 ins hins
  apply findDirAux_hit
  show (ins ++ g.dirCache).lookup (Trim d ['/']) = some n
  rw [lookup_append_of_ne _ ins _ hins, hlook]

/-- C2, amended, on the small archive: `a/empty` is resolved once and then
served from the cache while the decoder fails. -/
theorem findDir_cached_witness :
    ({ sampleFs with dirCache := [("a/empty".toList, 2), ("a".toList, 1), ([], 0)] } :
      Fs Nat).dirCache.lookup (Trim "a/empty".toList ['/']) = some 2 ∧
    ∀ (dec2 : Decoder Nat) (ins : List (Str × Nat)),
      (∀ kv ∈ ins, kv.1 ≠ Trim "a/empty".toList ['/']) →
      Fs.findDir dec2
        { sampleFs with
          dirCache := ins ++ [("a/empty".toList, 2), ("a".toList, 1), ([], 0)] }
        "a/empty".toList =
        some (.ok 2, { sampleFs with
          dirCache := ins ++ [("a/empty".toList, 2), ("a".toList, 1), ([], 0)] }) :=
  findDir_cached sampleDecoder sampleFs
    { sampleFs with dirCache := [("a/empty".toList, 2), ("a".toList, 1), ([], 0)] }
    "a/empty".toList 2 (by decide) (by decide)

/-! ## Doubled and trailing separators -/

theorem elems_TrimLeft (p : Str) : elems (TrimLeft p ['/']) = elems p := by
  rw [TrimLeft_slash]
  induction p with
  | nil => rfl
  | cons c cs ih =>
    by_cases hc : c = '/'
    · subst hc
      rw [List.dropWhile_cons_of_pos (by simp), ih, elems_cons_slash]
    · rw [List.dropWhile_cons_of_neg (by simpa using hc)]

theorem elems_TrimRight (p : Str) : elems (TrimRight p ['/']) = elems p := by
  rw [TrimRight_slash]
  induction p using List.reverseRecOn with
  | nil => rfl
  | append_singleton l x ih =>
    by_cases hx : x = '/'
    · subst hx
      rw [List.rdropWhile_concat_pos _ _ _ (by simp), ih, elems_append_slash, elems_nil,
        List.append_nil]
    · rw [List.rdropWhile_concat_neg _ _ _ (by simpa using hx)]

theorem elems_Trim (p : Str) : elems (Trim p ['/']) = elems p := by
  rw [Trim, elems_TrimRight, elems_TrimLeft]

theorem splitSlash_cons_congr (c : Char) (x y : Str) (s : Str) (ss ss2 : List Str)
    (hx : splitSlash x = s :: ss) (hy : splitSlash y = s :: ss2)
    (hf : ss.filter (fun e => decide (e ≠ [])) = ss2.filter (fun e => decide (e ≠ []))) :
    ∃ t tt tt2, splitSlash (c :: x) = t :: tt ∧ splitSlash (c :: y) = t :: tt2 ∧
      tt.filter (fun e => decide (e ≠ [])) = tt2.filter (fun e => decide (e ≠ [])) := by
  by_cases hc : c = '/'
  · refine ⟨[], s :: ss, s :: ss2, by simp [splitSlash, hc, hx], by simp [splitSlash, hc, hy], ?_⟩
    rw [List.filter_cons, List.filter_cons, hf]
  · exact ⟨c :: s, ss, ss2, by simp [splitSlash, hc, hx], by simp [splitSlash, hc, hy], hf⟩

theorem splitSlash_collapseSlashes : ∀ p : Str, ∃ s ss ss2,
    splitSlash (collapseSlashes p) = s :: ss ∧ splitSlash p = s :: ss2 ∧
    ss.filter (fun e => decide (e ≠ [])) = ss2.filter (fun e => decide (e ≠ []))
  | [] => ⟨[], [], [], rfl, rfl, rfl⟩
  | [c] => by
    by_cases hc : c = '/'
    · exact ⟨[], [[]], [[]], by simp [collapseSlashes, splitSlash, hc],
        by simp [splitSlash, hc], rfl⟩
    · exact ⟨[c], [], [], by simp [collapseSlashes, splitSlash, hc],
        by simp [splitSlash, hc], rfl⟩
  | c :: d :: rest => by
    obtain ⟨s, ss, ss2, h1, h2, h3⟩ := splitSlash_collapseSlashes (d :: rest)
    rw [collapseSlashes]
    by_cases hcd : c = '/' ∧ d = '/'
    · obtain ⟨rfl, rfl⟩ := hcd
      simp only [and_self, if_true]
      have hs : s = [] := by
        simp only [splitSlash, if_true, List.cons.injEq] at h2
        exact h2.1.symm
      subst hs
      refine ⟨[], ss, [] :: ss2, h1, ?_, by simpa using h3⟩
      rw [splitSlash, h2]
      simp
    · simp only [hcd, if_false]
      exact splitSlash_cons_congr c _ _ s ss ss2 h1 h2 h3

theorem elems_collapseSlashes (p : Str) : elems (collapseSlashes p) = elems p := by
  obtain ⟨s, ss, ss2, h1, h2, h3⟩ := splitSlash_collapseSlashes p
  unfold elems
  rw [h1, h2]
  rw [List.filter_cons, List.filter_cons, h3]

theorem elems_normalise (p : Str) : elems (normalise p) = elems p := by
  rw [normalise, elems_Trim, elems_collapseSlashes]

theorem elems_splitLoop (t : Str) (hne : t ≠ []) (hh : t.head? ≠ some '/') :
    elems t = elems (splitLoop t).1 ++ [(splitLoop t).2] := by
  have hleaf := splitLoop_leaf t hne hh
  obtain ⟨k, hk, h⟩ := splitLoop_spec t
  rcases h with ⟨h1, h2⟩ | ⟨-, h2⟩
  · conv_lhs => rw [h2]
    rw [elems_append_replicate, elems_of_not_mem _ hk hleaf, h1, elems_nil]
    rfl
  · conv_lhs => rw [h2]
    rw [elems_append_slash, elems_append_replicate, elems_of_not_mem _ hk hleaf]

theorem resolve_append {N : Type} (dec : Decoder N) (root : N) (es : List Str) (e : Str) :
    resolve dec root (es ++ [e]) =
      match resolve dec root es with
      | .ok n => subDir dec n e
      | .error err => .error err := by
  simp [resolve, List.foldl_append]

/-- On a cache that agrees with the decoder, `_findDir` of an unrooted path
returns what the decoder resolves for the non-empty elements of the path. -/
theorem findDirAux_outcome {N : Type} (dec : Decoder N) (root : N) : ∀ (fuel : Nat) (f : Fs N)
    (t : Str), CacheAgrees dec f root → t.head? ≠ some '/' → t.length < fuel →
    ∃ g, Fs._findDir dec fuel f t = some (resolve dec root (elems t), g)
  | 0, f, t, _, _, h => by omega
  | fuel + 1, f, t, hag, hh, hfuel => by
    rw [findDirAux_succ]
    cases hl : f.dirCache.lookup t with
    | some dir => exact ⟨f, by rw [hag.2 t dir hl]⟩
    | none =>
      have hne : t ≠ [] := by
        rintro rfl
        rw [hag.1] at hl
        simp at hl
      have hlen := splitLoop_length t hne
      obtain ⟨g1, hg1⟩ := findDirAux_outcome dec root fuel f (splitLoop t).1 hag
        (splitLoop_head t hh) (by omega)
      simp only [hg1]
      rw [elems_splitLoop t hne hh, resolve_append]
      cases hres : resolve dec root (elems (splitLoop t).1) with
      | error e => exact ⟨_, rfl⟩
      | ok parent =>
        simp only [subDir]
        cases hsub : dec.Sub parent (splitLoop t).2 with
        | error e =>
          simp only
          split <;> exact ⟨_, rfl⟩
        | ok sub =>
          cases sub <;> exact ⟨_, rfl⟩

theorem findDir_outcome {N : Type} (dec : Decoder N) (root : N) (f : Fs N) (p : Str)
    (hag : CacheAgrees dec f root) :
    (f.findDir dec p).map Prod.fst = some (resolve dec root (elems p)) := by
  obtain ⟨g, hg⟩ := findDirAux_outcome dec root ((Trim p ['/']).length + 1) f (Trim p ['/']) hag
    (Trim_head p) (Nat.lt_succ_self _)
  rw [Fs.findDir, hg, elems_Trim]
  rfl

theorem LastIndexByte_of_not_mem (s : Str) (c : Char) (h : c ∉ s) : LastIndexByte s c = none := by
  induction s with
  | nil => rfl
  | cons x xs ih =>
    simp only [List.mem_cons, not_or] at h
    have hx : x ≠ c := fun e => h.1 e.symm
    rw [LastIndexByte, ih h.2]
    simp [hx]

theorem LastIndexByte_append (a b : Str) (c : Char) (h : c ∉ b) :
    LastIndexByte (a ++ c :: b) c = some a.length := by
  induction a with
  | nil =>
    rw [List.nil_append, LastIndexByte, LastIndexByte_of_not_mem b c h]
    simp
  | cons x xs ih =>
    rw [List.cons_append, LastIndexByte, ih]
    rfl

theorem splitLoopAux_trailing (a : Str) (fuel : Nat) :
    splitLoopAux (fuel + 1) (a ++ ['/']) = splitLoopAux fuel a := by
  rw [splitLoopAux, LastIndexByte_append a [] '/' (by simp)]
  have htake : (a ++ ['/']).take a.length = a := by simp
  have hdrop : (a ++ ['/']).drop (a.length + 1) = [] := by
    rw [List.drop_append_eq_append_drop]; simp
  simp only [htake, hdrop, ne_eq, not_true_eq_false, if_false]

/-- The loop skips the empty leaves of trailing and doubled separators: the
leaf is the first non-empty element from the right and the parent is the path
before the separator in front of it. -/
theorem splitLoopAux_parent_leaf (d l : Str) (hl : '/' ∉ l) (hne : l ≠ []) :
    ∀ (k fuel : Nat), (d ++ '/' :: (l ++ List.replicate k '/')).length < fuel →
      splitLoopAux fuel (d ++ '/' :: (l ++ List.replicate k '/')) = (d, l)
  | _, 0, h => by omega
  | 0, fuel + 1, _ => by
    rw [splitLoopAux]
    simp only [List.replicate_zero, List.append_nil]
    rw [LastIndexByte_append d l '/' hl]
    have htake : (d ++ '/' :: l).take d.length = d := by simp
    have hdrop : (d ++ '/' :: l).drop (d.length + 1) = l := by
      rw [List.drop_append_eq_append_drop]; simp
    simp only [htake, hdrop, ne_eq, hne, not_false_eq_true, if_true]
  | k + 1, fuel + 1, h => by
    have ht : d ++ '/' :: (l ++ List.replicate (k + 1) '/') =
        (d ++ '/' :: (l ++ List.replicate k '/')) ++ ['/'] := by
      rw [List.replicate_succ']
      simp
    rw [ht, splitLoopAux_trailing]
    apply splitLoopAux_parent_leaf d l hl hne k fuel
    rw [ht] at h
    simp only [List.length_append, List.length_cons, List.length_nil] at h ⊢
    omega

theorem splitLoop_parent_leaf (d l : Str) (k : Nat) (hl : '/' ∉ l) (hne : l ≠ []) :
    splitLoop (d ++ '/' :: (l ++ List.replicate k '/')) = (d, l) :=
  splitLoopAux_parent_leaf d l hl hne k _ (Nat.lt_succ_self _)

theorem splitLoopAux_no_parent (l : Str) (hl : '/' ∉ l) :
    ∀ (k fuel : Nat), (l ++ List.replicate k '/').length < fuel →
      splitLoopAux fuel (l ++ List.replicate k '/') = ([], l)
  | _, 0, h => by omega
  | 0, fuel + 1, _ => by
    rw [splitLoopAux]
    simp only [List.replicate_zero, List.append_nil]
    rw [LastIndexByte_of_not_mem l '/' hl]
  | k + 1, fuel + 1, h => by
    have ht : l ++ List.replicate (k + 1) '/' = (l ++ List.replicate k '/') ++ ['/'] := by
      rw [List.replicate_succ']
      simp
    rw [ht, splitLoopAux_trailing]
    apply splitLoopAux_no_parent l hl k fuel
    rw [ht] at h
    simp only [List.length_append, List.length_cons, List.length_nil] at h ⊢
    omega

theorem splitLoop_no_parent (l : Str) (k : Nat) (hl : '/' ∉ l) :
    splitLoop (l ++ List.replicate k '/') = ([], l) :=
  splitLoopAux_no_parent l hl k _ (Nat.lt_succ_self _)

theorem cacheAgrees_of_mem {N : Type} (dec : Decoder N) (f : Fs N) (root : N)
    (h0 : f.dirCache.lookup [] = some root)
    (h : ∀ kv ∈ f.dirCache, resolve dec root (elems kv.1) = .ok kv.2) :
    CacheAgrees dec f root := by
  refine ⟨h0, ?_⟩
  intro k n hk
  have hmem : ∀ (c : List (Str × N)), c.lookup k = some n → (k, n) ∈ c := by
    intro c
    induction c with
    | nil => simp
    | cons x xs ih =>
      obtain ⟨a, b⟩ := x
      rw [List.lookup_cons]
      by_cases hka : k = a
      · subst hka
        simp only [beq_self_eq_true, Option.some.injEq]
        rintro rfl
        exact List.mem_cons_self _ _
      · have : (k == a) = false := by simpa using hka
        rw [this]
        intro hx
        exact List.mem_cons_of_mem _ (ih hx)
  exact h (k, n) (hmem _ hk)

/-- C8, counterexample: in the state that resolving `a/empty` on the small
archive leaves, and with a decoder that fails from then on, `findDir` of
`a//empty` fails although `findDir` of the collapsed path `a/empty` returns
the directory `2`; and with a decoder that hands out new handles, `findDir` of
`a//empty` returns the new handle `12`, not the cached directory `2`. -/
theorem findDir_collapse_counterexample :
    sampleFs.findDir sampleDecoder "a/empty".toList =
      some (.ok 2, { sampleFs with
        dirCache := [("a/empty".toList, 2), ("a".toList, 1), ([], 0)] }) ∧
    normalise "a//empty".toList = "a/empty".toList ∧
    Fs.findDir failingDecoder
      { sampleFs with dirCache := [("a/empty".toList, 2), ("a".toList, 1), ([], 0)] }
      (normalise "a//empty".toList) =
      some (.ok 2, { sampleFs with
        dirCache := [("a/empty".toList, 2), ("a".toList, 1), ([], 0)] }) ∧
    Fs.findDir failingDecoder
      { sampleFs with dirCache := [("a/empty".toList, 2), ("a".toList, 1), ([], 0)] }
      "a//empty".toList =
      some (.error (.other "read error"), { sampleFs with
        dirCache := [("a/empty".toList, 2), ("a".toList, 1), ([], 0)] }) ∧
    (Fs.findDir rehandlingDecoder
      { sampleFs with dirCache := [("a/empty".toList, 2), ("a".toList, 1), ([], 0)] }
      (normalise "a//empty".toList)).map Prod.fst = some (.ok 2) ∧
    (Fs.findDir rehandlingDecoder
      { sampleFs with dirCache := [("a/empty".toList, 2), ("a".toList, 1), ([], 0)] }
      "a//empty".toList).map Prod.fst = some (.ok 12) := by
  decide

/-- C8, amended: for every `Fs` state whose cache agrees with the decoder and
every path `p`, `findDir` of `p` and `findDir` of `p` with its leading and
trailing separators removed and its runs of separators collapsed return the
same directory or the same error, namely what the decoder resolves for the
non-empty elements of `p`; and the split loop of `_findDir` skips empty
leaves, so that it leaves with the first non-empty element from the right as
the leaf and the path before that element's separator as the parent (the
empty path when there is no such separator). -/
theorem findDir_collapse {N : Type} (dec : Decoder N) (f : Fs N) (root : N) (p : Str)
    (hag : CacheAgrees dec f root) :
    (f.findDir dec p).map Prod.fst = (f.findDir dec (normalise p)).map Prod.fst ∧
    (f.findDir dec p).map Prod.fst = some (resolve dec root (elems p)) ∧
    (∀ (d l : Str) (k : Nat), '/' ∉ l → l ≠ [] →
      splitLoop (d ++ '/' :: (l ++ List.replicate k '/')) = (d, l)) ∧
    (∀ (l : Str) (k : Nat), '/' ∉ l → splitLoop (l ++ List.replicate k '/') = ([], l)) := by
  refine ⟨?_, findDir_outcome dec root f p hag, ?_, ?_⟩
  · rw [findDir_outcome dec root f p hag, findDir_outcome dec root f (normalise p) hag,
      elems_normalise]
  · intro d l k hl hne
    exact splitLoop_parent_leaf d l k hl hne
  · intro l k hl
    exact splitLoop_no_parent l k hl

/-- C8, amended, on the small archive with `a` cached: `a//empty/` and
`a/empty` both resolve to the directory `2`. -/
theorem findDir_collapse_witness :
    (Fs.findDir sampleDecoder { sampleFs with dirCache := [("a".toList, 1), ([], 0)] }
      "a//empty/".toList).map Prod.fst =
    (Fs.findDir sampleDecoder { sampleFs with dirCache := [("a".toList, 1), ([], 0)] }
      (normalise "a//empty/".toList)).map Prod.fst ∧
    (Fs.findDir sampleDecoder { sampleFs with dirCache := [("a".toList, 1), ([], 0)] }
      "a//empty/".toList).map Prod.fst =
      some (resolve sampleDecoder 0 (elems "a//empty/".toList)) ∧
    (∀ (d l : Str) (k : Nat), '/' ∉ l → l ≠ [] →
      splitLoop (d ++ '/' :: (l ++ List.replicate k '/')) = (d, l)) ∧
    (∀ (l : Str) (k : Nat), '/' ∉ l → splitLoop (l ++ List.replicate k '/') = ([], l)) :=
  findDir_collapse sampleDecoder { sampleFs with dirCache := [("a".toList, 1), ([], 0)] } 0
    "a//empty/".toList (cacheAgrees_of_mem _ _ _ (by decide) (by decide))

/-! ## Listing a directory and opening its files -/

theorem mem_of_lookup {N : Type} (k : Str) (n : N) : ∀ (c : List (Str × N)),
    c.lookup k = some n → (k, n) ∈ c := by
  intro c
  induction c with
  | nil => simp
  | cons x xs ih =>
    obtain ⟨a, b⟩ := x
    rw [List.lookup_cons]
    by_cases hka : k = a
    · subst hka
      simp only [beq_self_eq_true, Option.some.injEq]
      rintro rfl
      exact List.mem_cons_self _ _
    · have : (k == a) = false := by simpa using hka
      rw [this]
      intro hx
      exact List.mem_cons_of_mem _ (ih hx)

/-- What holds of every state reached from an `Fs` that `New` returned: the
prefix carries its separator, the empty path is cached, and every cached key is
the separator-joined list of its elements. -/
theorem reachable_wellFormed {N : Type} (st : Storage N) (dec0 : Decoder N)
    (remote pfx root : Str) (f0 f : Fs N) (err : Option Error) (P : Decoder N → Prop)
    (hnew : New st dec0 remote pfx root = some (some f0, err)) (hsteps : Steps P f0 f) :
    f.prefixSlash = (if f.mountPrefix = [] then [] else f.mountPrefix ++ ['/']) ∧
    (∃ rootDir, f.dirCache.lookup [] = some rootDir) ∧
    (∀ k n, f.dirCache.lookup k = some n → joinSlash (elems k) = k) := by
  obtain ⟨⟨rootDir, hc⟩, -, hp, hps⟩ := New_spec st dec0 remote pfx root f0 err hnew
  obtain ⟨ins, hf, hins⟩ := Steps_frame P f0 f hsteps
  have hcache : f.dirCache = ins ++ [([], rootDir)] := by rw [hf, hc]
  refine ⟨?_, ⟨rootDir, ?_⟩, ?_⟩
  · rw [hf]
    show f0.prefixSlash = if f0.mountPrefix = [] then [] else f0.mountPrefix ++ ['/']
    rw [hps, hp]
  · rw [hcache, lookup_append_of_ne [] ins _ (fun kv hkv => (hins kv hkv).1)]
    rfl
  · intro k n hk
    have hmem := mem_of_lookup k n _ hk
    rw [hcache] at hmem
    rcases List.mem_append.mp hmem with h | h
    · exact (hins (k, n) h).2
    · simp only [List.mem_singleton, Prod.mk.injEq] at h
      rw [h.1]
      rfl

theorem stripPrefix_facts {N : Type} (f : Fs N) (d dir : Str)
    (hslash : f.prefixSlash = if f.mountPrefix = [] then [] else f.mountPrefix ++ ['/'])
    (h : f.stripPrefix d = .ok dir) :
    f.mountPrefix.head? ≠ some '/' ∧ dir.getLast? ≠ some '/' ∧
    (f.mountPrefix = [] → dir.head? ≠ some '/') := by
  unfold Fs.stripPrefix at h
  simp only at h
  by_cases h1 : Trim d ['/'] = f.mountPrefix
  · simp only [h1, if_true, Except.ok.injEq] at h
    subst h
    refine ⟨?_, by simp, by simp⟩
    rw [← h1]
    exact Trim_head d
  · simp only [h1, if_false] at h
    by_cases h2 : HasPrefix (Trim d ['/']) f.prefixSlash = true
    · simp only [h2, Bool.not_true, Bool.false_eq_true, if_false, Except.ok.injEq] at h
      have hpre : f.prefixSlash ++ dir = Trim d ['/'] := by
        rw [← h]
        exact List.prefix_iff_eq_append.mp (List.isPrefixOf_iff_prefix.mp h2)
      by_cases hm : f.mountPrefix = []
      · have hps : f.prefixSlash = [] := by rw [hslash]; simp [hm]
        rw [hps, List.nil_append] at hpre
        rw [hm, hpre]
        exact ⟨by simp, Trim_getLast d, fun _ => Trim_head d⟩
      · have hps : f.prefixSlash = f.mountPrefix ++ ['/'] := by rw [hslash]; simp [hm]
        rw [hps] at hpre
        refine ⟨?_, ?_, fun e => absurd e hm⟩
        · have := Trim_head d
          rw [← hpre] at this
          obtain ⟨c, cs, hcs⟩ := List.exists_cons_of_ne_nil hm
          rw [hcs] at this ⊢
          simpa using this
        · by_cases hdn : dir = []
          · simp [hdn]
          · have := Trim_getLast d
            rw [← hpre, List.getLast?_append_of_ne_nil _ hdn] at this
            exact this
    · simp [h2] at h

theorem stripPrefix_join_ne {N : Type} (f : Fs N) (p : Str)
    (hslash : f.prefixSlash = if f.mountPrefix = [] then [] else f.mountPrefix ++ ['/'])
    (hpfx : f.mountPrefix.head? ≠ some '/') (hp : p ≠ [])
    (hlast : p.getLast? ≠ some '/')
    (hhead : f.mountPrefix = [] → p.head? ≠ some '/') :
    f.stripPrefix (f.prefixSlash ++ p) = .ok p := by
  by_cases hm : f.mountPrefix = []
  · have hps : f.prefixSlash = [] := by rw [hslash]; simp [hm]
    have hT : Trim p ['/'] = p := Trim_of_trimmed p (hhead hm) hlast
    simp [Fs.stripPrefix, hm, hT, hps, hp, HasPrefix]
  · have hps : f.prefixSlash = f.mountPrefix ++ ['/'] := by rw [hslash]; simp [hm]
    have hT : Trim (f.mountPrefix ++ '/' :: p) ['/'] = f.mountPrefix ++ '/' :: p := by
      apply Trim_of_trimmed
      · cases hq : f.mountPrefix with
        | nil => exact absurd hq hm
        | cons c cs => rw [hq] at hpfx; simpa using hpfx
      · rw [List.getLast?_append_of_ne_nil _ (by simp)]
        obtain ⟨c, cs, rfl⟩ := List.exists_cons_of_ne_nil hp
        rw [List.getLast?_cons_cons]
        exact hlast
    have hne : f.mountPrefix ++ '/' :: p ≠ f.mountPrefix := by
      intro h
      have := congrArg List.length h
      simp at this
    simp [Fs.stripPrefix, hT, hne, hps, HasPrefix]

theorem listItems_mem {N : Type} (f : Fs N) (dir : Str) : ∀ (items : List DirItem)
    (acc entries : DirEntries) (o : Object), f.listItems dir items acc = .ok entries →
    DirEntry.object o ∈ entries →
    DirEntry.object o ∈ acc ∨
    ∃ item ∈ items, item.IsDir = false ∧ item.Info = .ok ⟨o.size, o.modTime⟩ ∧
      o.remote = f.prefixSlash ++ Join dir item.Name
  | [], acc, entries, o, h, ho => by
    simp only [Fs.listItems, Except.ok.injEq] at h
    rw [← h] at ho
    exact Or.inl ho
  | item :: items, acc, entries, o, h, ho => by
    rw [Fs.listItems] at h
    simp only at h
    cases hi : item.Info with
    | error e => simp [hi] at h
    | ok fi =>
      simp only [hi] at h
      rcases listItems_mem f dir items _ entries o h ho with h1 | ⟨it, hit, h2⟩
      · rcases List.mem_append.mp h1 with h3 | h3
        · exact Or.inl h3
        · right
          simp only [List.mem_singleton] at h3
          by_cases hd : item.IsDir = true
          · simp [hd] at h3
          · simp only [hd, Bool.false_eq_true, if_false, DirEntry.object.injEq] at h3
            refine ⟨item, List.mem_cons_self _ _, by simpa using hd, ?_, ?_⟩
            · rw [h3, hi]
            · rw [h3]
      · exact Or.inr ⟨it, List.mem_cons_of_mem _ hit, h2⟩

theorem elems_ne_nil (t : Str) (hne : t ≠ []) (hh : t.head? ≠ some '/') : elems t ≠ [] := by
  rw [elems_splitLoop t hne hh]
  simp

theorem ValidName_head (name : Str) (hn : ValidName name) : name.head? ≠ some '/' := by
  intro h
  apply hn.2.1
  cases name with
  | nil => simp at h
  | cons c cs =>
    simp only [List.head?_cons, Option.some.injEq] at h
    simp [h]

theorem elems_all_append (dir name : Str) (hn : ValidName name) :
    ∀ e ∈ elems dir ++ [name], e ≠ [] ∧ '/' ∉ e := by
  intro e he
  rcases List.mem_append.mp he with h | h
  · exact elems_mem dir e h
  · simp only [List.mem_singleton] at h
    rw [h]
    exact ⟨hn.1, hn.2.1⟩

/-- The path that `List` gives to a child: `path.Join(dir, name)` for a
directory path without `.` and `..` elements and the name of an entry. -/
theorem Join_nodots (dir name : Str) (hd : NoDots dir) (hn : ValidName name) :
    Join dir name =
      (if dir.head? = some '/' then ['/'] else []) ++ joinSlash (elems dir ++ [name]) := by
  have hbody : joinSlash (elems dir ++ [name]) ≠ [] :=
    joinSlash_ne_nil _ (by simp) (fun e he => (elems_all_append dir name hn e he).1)
  unfold Join
  by_cases hdn : dir = []
  · subst hdn
    have hel : elems name = [name] := elems_of_not_mem name hn.2.1 hn.1
    have hnd : NoDots name := by
      unfold NoDots
      rw [hel]
      simp only [List.mem_singleton]
      exact ⟨fun h => hn.2.2.1 h.symm, fun h => hn.2.2.2 h.symm⟩
    simp only [hn.1, and_false, if_false, if_true]
    rw [Clean_nodots name hn.1 hnd, hel, elems_nil]
    simp [ValidName_head name hn, joinSlash, hn.1]
  · have hel : elems (dir ++ '/' :: name) = elems dir ++ [name] := by
      rw [elems_append_slash, elems_of_not_mem name hn.2.1 hn.1]
    have hnd : NoDots (dir ++ '/' :: name) := by
      unfold NoDots
      rw [hel]
      simp only [List.mem_append, List.mem_singleton, not_or]
      exact ⟨⟨hd.1, fun h => hn.2.2.1 h.symm⟩, ⟨hd.2, fun h => hn.2.2.2 h.symm⟩⟩
    have hhead : (dir ++ '/' :: name).head? = dir.head? := by
      obtain ⟨c, cs, rfl⟩ := List.exists_cons_of_ne_nil hdn
      rfl
    simp only [hdn, hn.1, and_false, false_and, if_false]
    rw [Clean_nodots _ (by simp) hnd, hel, hhead]
    by_cases hr : dir.head? = some '/'
    · simp [hr]
    · simp [hr, hbody]

theorem Trim_cons_slash (p : Str) : Trim ('/' :: p) ['/'] = Trim p ['/'] := by
  have h : TrimLeft ('/' :: p) ['/'] = TrimLeft p ['/'] := by
    rw [TrimLeft_slash, TrimLeft_slash, List.dropWhile_cons_of_pos (by simp)]
  rw [Trim, Trim, h]

theorem Trim_Join_nodots (dir name : Str) (hd : NoDots dir) (hn : ValidName name) :
    Trim (Join dir name) ['/'] = joinSlash (elems dir ++ [name]) := by
  have hall := elems_all_append dir name hn
  have ht : Trim (joinSlash (elems dir ++ [name])) ['/'] = joinSlash (elems dir ++ [name]) :=
    Trim_of_trimmed _ (joinSlash_head _ hall) (joinSlash_getLast _ hall)
  rw [Join_nodots dir name hd hn]
  by_cases hr : dir.head? = some '/'
  · simp only [hr, if_true, List.singleton_append]
    rw [Trim_cons_slash, ht]
  · simp only [hr, if_false, List.nil_append]
    exact ht

/-- With the listed directory cached under the joined elements of its path,
`findParent` of a child's path is a cache hit on that directory. -/
theorem findParent_listed {N : Type} (dec : Decoder N) (g : Fs N) (dir name : Str) (X : N)
    (hd : NoDots dir) (hn : ValidName name)
    (hX : g.dirCache.lookup (joinSlash (elems dir)) = some X) :
    g.findParent dec (Join dir name) = some (.ok (X, name), g) := by
  unfold Fs.findParent
  simp only
  rw [Trim_Join_nodots dir name hd hn]
  by_cases hes : elems dir = []
  · rw [hes] at hX ⊢
    have hsplit : Split (joinSlash ([] ++ [name])) = ([], name) := by
      simp only [List.nil_append, joinSlash, Split]
      rw [LastIndexByte_of_not_mem name '/' hn.2.1]
    rw [hsplit]
    have hf : g.findDir dec [] = some (.ok X, g) := findDirAux_hit dec 0 g [] X hX
    simp only [hf]
  · have hall : ∀ e ∈ elems dir, e ≠ [] ∧ '/' ∉ e := fun e he => elems_mem dir e he
    have hK : Trim (joinSlash (elems dir)) ['/'] = joinSlash (elems dir) :=
      Trim_of_trimmed _ (joinSlash_head _ hall) (joinSlash_getLast _ hall)
    have hsplit : Split (joinSlash (elems dir ++ [name])) =
        (joinSlash (elems dir) ++ ['/'], name) := by
      rw [joinSlash_append_singleton _ _ hes, Split, LastIndexByte_append _ _ _ hn.2.1]
      have htake : (joinSlash (elems dir) ++ '/' :: name).take ((joinSlash (elems dir)).length + 1)
          = joinSlash (elems dir) ++ ['/'] := by
        have : joinSlash (elems dir) ++ '/' :: name = (joinSlash (elems dir) ++ ['/']) ++ name := by
          simp
        rw [this, List.take_left' (by simp)]
      have hdrop : (joinSlash (elems dir) ++ '/' :: name).drop ((joinSlash (elems dir)).length + 1)
          = name := by
        rw [List.drop_append_eq_append_drop]; simp
      simp only [htake, hdrop]
    rw [hsplit]
    have hf : g.findDir dec (joinSlash (elems dir) ++ ['/']) = some (.ok X, g) := by
      unfold Fs.findDir
      simp only
      rw [Trim_append_slash _ hK]
      exact findDirAux_hit dec _ g _ X hX
    simp only [hf]

/-- After `findDir` of a path without `.` and `..` elements succeeded on a
state whose cached keys are joined lists of elements, the directory it
returned is cached under the joined elements of the path. -/
theorem findDir_listed {N : Type} (dec : Decoder N) (f g : Fs N) (dir : Str) (X : N)
    (hd : NoDots dir)
    (hkeys : ∀ k n, f.dirCache.lookup k = some n → joinSlash (elems k) = k)
    (h : f.findDir dec dir = some (.ok X, g)) :
    g.dirCache.lookup (joinSlash (elems dir)) = some X := by
  have hel : elems (Trim dir ['/']) = elems dir := elems_Trim dir
  rcases findDirAux_caches dec _ f g _ X (Trim_head dir) h with ⟨h1, h2⟩ | ⟨-, hne, h2⟩
  · rw [h2, ← hel, hkeys _ _ h1]
    exact h1
  · have hnd : NoDots (Trim dir ['/']) := by
      unfold NoDots
      rw [hel]
      exact hd
    have hes := elems_ne_nil _ hne (Trim_head dir)
    have hj : joinSlash (elems (Trim dir ['/'])) ≠ [] :=
      joinSlash_ne_nil _ hes (fun e he => (elems_mem _ e he).1)
    rw [Clean_nodots _ hne hnd] at h2
    simp only [Trim_head dir, if_false, hj] at h2
    rw [← hel]
    exact h2

theorem Join_nodots_facts (dir name : Str) (hd : NoDots dir) (hn : ValidName name) :
    Join dir name ≠ [] ∧ (Join dir name).getLast? ≠ some '/' ∧
    (dir.head? ≠ some '/' → (Join dir name).head? ≠ some '/') := by
  have hall := elems_all_append dir name hn
  have hbody : joinSlash (elems dir ++ [name]) ≠ [] :=
    joinSlash_ne_nil _ (by simp) (fun e he => (hall e he).1)
  rw [Join_nodots dir name hd hn]
  refine ⟨by simp [hbody], ?_, ?_⟩
  · rw [List.getLast?_append_of_ne_nil _ hbody]
    exact joinSlash_getLast _ hall
  · intro hr
    simp only [hr, if_false, List.nil_append]
    exact joinSlash_head _ hall

/-- Listing and opening for a path without `.` and `..` elements, on a state
whose prefix carries its separator and whose cached keys are joined lists of
elements, with any behaviour of the child lookup. -/
theorem List_then_Open_nodots {N : Type} (f g : Fs N)
    (Decode : Int → Int → Int → Int × Int) (dec : Decoder N) (d dir : Str)
    (entries : DirEntries) (o : Object)
    (hslash : f.prefixSlash = if f.mountPrefix = [] then [] else f.mountPrefix ++ ['/'])
    (hkeys : ∀ k n, f.dirCache.lookup k = some n → joinSlash (elems k) = k)
    (hdec : ListingOk dec)
    (hstrip : f.stripPrefix d = .ok dir) (hdots : NoDots dir)
    (hlist : f.List dec d = some (.ok entries, g))
    (ho : DirEntry.object o ∈ entries) :
    ∃ (X : N) (items : List DirItem) (item : DirItem) (content : List UInt8),
      f.findDir dec dir = some (.ok X, g) ∧ dec.ReadDir X = .ok items ∧ item ∈ items ∧
      item.IsDir = false ∧ item.Info = .ok ⟨o.Size, o.modTime⟩ ∧
      g.stripPrefix o.Remote = .ok (Join dir item.Name) ∧
      g.findParent dec (Join dir item.Name) = some (.ok (X, item.Name), g) ∧
      Object.Open Decode dec g o [] = some (.ok content, g) ∧
      (content.length : Int) = o.Size := by
  unfold Fs.List at hlist
  rw [hstrip] at hlist
  simp only at hlist
  cases hfd : f.findDir dec dir with
  | none => simp [hfd] at hlist
  | some res =>
    obtain ⟨r1, f1⟩ := res
    cases r1 with
    | error e => simp [hfd] at hlist
    | ok X =>
      simp only [hfd] at hlist
      cases hrd : dec.ReadDir X with
      | error e => simp [hrd] at hlist
      | ok items =>
        simp only [hrd, Option.some.injEq, Prod.mk.injEq] at hlist
        obtain ⟨hitems, rfl⟩ := hlist
        obtain ⟨ins, hg, -⟩ := findDir_frame dec f f1 dir _ hfd
        have hgp : f1.prefixSlash = f.prefixSlash := by rw [hg]
        have hgm : f1.mountPrefix = f.mountPrefix := by rw [hg]
        have hgslash : f1.prefixSlash =
            if f1.mountPrefix = [] then [] else f1.mountPrefix ++ ['/'] := by
          rw [hgp, hgm]; exact hslash
        obtain ⟨hpfx, -, hhead⟩ := stripPrefix_facts f d dir hslash hstrip
        rcases listItems_mem f1 dir items [] entries o hitems ho with h | ⟨item, hmem, hnd, hinfo, hrem⟩
        · simp at h
        · obtain ⟨hname, hopen⟩ := hdec X items item hrd hmem
          obtain ⟨content, hcontent, hlen⟩ := hopen hnd _ hinfo
          obtain ⟨hJne, hJlast, hJhead⟩ := Join_nodots_facts dir item.Name hdots hname
          have hsp : f1.stripPrefix o.remote = .ok (Join dir item.Name) := by
            rw [hrem]
            exact stripPrefix_join_ne f1 _ hgslash (by rw [hgm]; exact hpfx) hJne hJlast
              (fun hm => hJhead (hhead (by rw [← hgm]; exact hm)))
          have hX := findDir_listed dec f f1 dir X hdots hkeys hfd
          have hfp := findParent_listed dec f1 dir item.Name X hdots hname hX
          refine ⟨X, items, item, content, rfl, hrd, hmem, hnd, hinfo, hsp, hfp, ?_, hlen⟩
          unfold Object.Open
          simp only [openOptions, hsp, hfp, hcontent]
          simp

/-! ### Paths that resolve through a decoder that resolves children by name -/

theorem NoDots_nil : NoDots [] := by
  unfold NoDots
  rw [elems_nil]
  simp

theorem NoDots_Clean (p : Str) (hne : p ≠ []) (hh : p.head? ≠ some '/') (hd : NoDots p) :
    NoDots (Clean p) := by
  have hj : joinSlash (elems p) ≠ [] :=
    joinSlash_ne_nil _ (elems_ne_nil p hne hh) (fun e he => (elems_mem p e he).1)
  rw [Clean_nodots p hne hd]
  simp only [hh, if_false, hj]
  unfold NoDots
  rw [elems_joinSlash _ (fun e he => elems_mem p e he)]
  exact hd

/-- With a decoder that resolves children by name, on a cache whose keys have
no `.` or `..` element, `_findDir` keeps the keys so, and a path that resolves
has no `.` or `..` element. -/
theorem findDirAux_nodots {N : Type} (dec : Decoder N) (hsub : SubOk dec) :
    ∀ (fuel : Nat) (f g : Fs N) (p : Str) (r : Except Error N),
    (∀ kv ∈ f.dirCache, NoDots kv.1) → p.head? ≠ some '/' →
    Fs._findDir dec fuel f p = some (r, g) →
    (∀ kv ∈ g.dirCache, NoDots kv.1) ∧ (∀ X, r = .ok X → NoDots p)
  | 0, f, g, p, r, _, _, h => by simp [Fs._findDir] at h
  | fuel + 1, f, g, p, r, hk, hp, h => by
    have h0 := h
    rw [findDirAux_succ] at h
    cases hl : f.dirCache.lookup p with
    | some dir =>
      simp only [hl, Option.some.injEq, Prod.mk.injEq] at h
      rw [← h.2]
      exact ⟨hk, fun _ _ => hk (p, dir) (mem_of_lookup p dir _ hl)⟩
    | none =>
      simp only [hl] at h
      have hpne : p ≠ [] := by
        rintro rfl
        rw [findDirAux_nil_miss dec f hl] at h0
        simp at h0
      cases hrec : Fs._findDir dec fuel f (splitLoop p).1 with
      | none => simp [hrec] at h
      | some res =>
        obtain ⟨r1, f1⟩ := res
        obtain ⟨hk1, hd1⟩ := findDirAux_nodots dec hsub fuel f f1 _ r1 hk (splitLoop_head p hp) hrec
        simp only [hrec] at h
        cases r1 with
        | error e =>
          simp only [Option.some.injEq, Prod.mk.injEq] at h
          rw [← h.2, ← h.1]
          exact ⟨hk1, fun X hX => by simp at hX⟩
        | ok parent =>
          simp only at h
          cases hs : dec.Sub parent (splitLoop p).2 with
          | error e =>
            simp only [hs] at h
            split at h <;>
            · simp only [Option.some.injEq, Prod.mk.injEq] at h
              rw [← h.2, ← h.1]
              exact ⟨hk1, fun X hX => by simp at hX⟩
          | ok sub =>
            have hname := hsub parent _ sub hs
            cases sub with
            | foreign =>
              simp only [hs, Option.some.injEq, Prod.mk.injEq] at h
              rw [← h.2, ← h.1]
              exact ⟨hk1, fun X hX => by simp at hX⟩
            | squashFS dir =>
              simp only [hs, Option.some.injEq, Prod.mk.injEq] at h
              have hdp : NoDots p := by
                have hdd := hd1 parent rfl
                unfold NoDots at hdd ⊢
                rw [elems_splitLoop p hpne hp]
                simp only [List.mem_append, List.mem_singleton, not_or]
                exact ⟨⟨hdd.1, fun e => hname.1 e.symm⟩, ⟨hdd.2, fun e => hname.2 e.symm⟩⟩
              rw [← h.2]
              refine ⟨?_, fun _ _ => hdp⟩
              intro kv hkv
              rcases List.mem_cons.mp hkv with rfl | hkv
              · show NoDots (Join (splitLoop p).1 (splitLoop p).2)
                rw [Join_splitLoop p hpne hp]
                exact NoDots_Clean p hpne hp hdp
              · exact hk1 kv hkv

theorem findDir_nodots {N : Type} (dec : Decoder N) (hsub : SubOk dec) (f g : Fs N) (p : Str)
    (r : Except Error N) (hk : ∀ kv ∈ f.dirCache, NoDots kv.1)
    (h : f.findDir dec p = some (r, g)) :
    (∀ kv ∈ g.dirCache, NoDots kv.1) ∧ (∀ X, r = .ok X → NoDots p) := by
  obtain ⟨h1, h2⟩ := findDirAux_nodots dec hsub _ f g _ r hk (Trim_head p) h
  refine ⟨h1, fun X hX => ?_⟩
  have := h2 X hX
  unfold NoDots at this ⊢
  rw [elems_Trim] at this
  exact this

theorem findParent_via_findDir {N : Type} (dec : Decoder N) (f g : Fs N) (name : Str)
    (r : Except Error (N × Str)) (h : f.findParent dec name = some (r, g)) :
    ∃ p r1, f.findDir dec p = some (r1, g) := by
  unfold Fs.findParent at h
  simp only at h
  cases hd : f.findDir dec (Split (Trim name ['/'])).1 with
  | none => simp [hd] at h
  | some res =>
    obtain ⟨r1, f1⟩ := res
    cases r1 <;>
    · simp only [hd, Option.some.injEq, Prod.mk.injEq] at h
      rw [← h.2]
      exact ⟨_, _, hd⟩

theorem List_ok_inv {N : Type} (dec : Decoder N) (f g : Fs N) (d : Str) (entries : DirEntries)
    (h : f.List dec d = some (.ok entries, g)) :
    ∃ dir X, f.stripPrefix d = .ok dir ∧ f.findDir dec dir = some (.ok X, g) := by
  unfold Fs.List at h
  cases hs : f.stripPrefix d with
  | error e => simp [hs] at h
  | ok dir =>
    simp only [hs] at h
    cases hd : f.findDir dec dir with
    | none => simp [hd] at h
    | some res =>
      obtain ⟨r1, f1⟩ := res
      cases r1 with
      | error e => simp [hd] at h
      | ok X =>
        simp only [hd] at h
        cases hrd : dec.ReadDir X with
        | error e => simp [hrd] at h
        | ok items =>
          simp only [hrd, Option.some.injEq, Prod.mk.injEq] at h
          rw [← h.2]
          exact ⟨dir, X, rfl, hd⟩

/-- The state after a call is the state before it or the state that one call
of `findDir` leaves. -/
theorem Step_via_findDir {N : Type} (P : Decoder N → Prop) (f g : Fs N) (h : Step P f g) :
    g = f ∨ ∃ dec p r, P dec ∧ f.findDir dec p = some (r, g) := by
  cases h with
  | findDir dec _ p r _ hP h => exact Or.inr ⟨dec, p, r, hP, h⟩
  | findParent dec _ p r _ hP h =>
    obtain ⟨q, r1, hq⟩ := findParent_via_findDir dec f g p r h
    exact Or.inr ⟨dec, q, r1, hP, hq⟩
  | list dec _ d r _ hP h =>
    unfold Fs.List at h
    cases hs : f.stripPrefix d with
    | error e =>
      simp only [hs, Option.some.injEq, Prod.mk.injEq] at h
      exact Or.inl h.2.symm
    | ok dir =>
      simp only [hs] at h
      cases hd : f.findDir dec dir with
      | none => simp [hd] at h
      | some res =>
        obtain ⟨r1, f1⟩ := res
        right
        refine ⟨dec, dir, r1, hP, ?_⟩
        cases r1 with
        | error e =>
          simp only [hd, Option.some.injEq, Prod.mk.injEq] at h
          rw [← h.2]
          exact hd
        | ok X =>
          simp only [hd] at h
          cases hrd : dec.ReadDir X <;>
          · simp only [hrd, Option.some.injEq, Prod.mk.injEq] at h
            rw [← h.2]
            exact hd
  | openObject Decode dec _ o options r _ hP h =>
    unfold Object.Open at h
    simp only at h
    cases hs : f.stripPrefix o.remote with
    | error e =>
      simp only [hs, Option.some.injEq, Prod.mk.injEq] at h
      exact Or.inl h.2.symm
    | ok remote =>
      simp only [hs] at h
      cases hd : f.findParent dec remote with
      | none => simp [hd] at h
      | some res =>
        obtain ⟨r1, f1⟩ := res
        obtain ⟨q, r2, hq⟩ := findParent_via_findDir dec f f1 remote r1 hd
        right
        refine ⟨dec, q, r2, hP, ?_⟩
        have hg : g = f1 := by
          cases r1 with
          | error e =>
            simp only [hd, Option.some.injEq, Prod.mk.injEq] at h
            exact h.2.symm
          | ok dl =>
            obtain ⟨dd, l⟩ := dl
            simp only [hd] at h
            cases ho : dec.Open dd l with
            | error e =>
              simp only [ho, Option.some.injEq, Prod.mk.injEq] at h
              exact h.2.symm
            | ok rc =>
              simp only [ho] at h
              split at h
              · simp only [Option.some.injEq, Prod.mk.injEq] at h
                exact h.2.symm
              · split at h <;>
                · simp only [Option.some.injEq, Prod.mk.injEq] at h
                  exact h.2.symm
        rw [hg]
        exact hq
  | newObject => exact Or.inl rfl
  | mkdir => exact Or.inl rfl
  | rmdir => exact Or.inl rfl
  | put => exact Or.inl rfl
  | setModTime => exact Or.inl rfl
  | update => exact Or.inl rfl
  | remove => exact Or.inl rfl

theorem Steps_nodots {N : Type} (f0 f : Fs N) (hk : ∀ kv ∈ f0.dirCache, NoDots kv.1)
    (h : Steps SubOk f0 f) : ∀ kv ∈ f.dirCache, NoDots kv.1 := by
  induction h with
  | refl => exact hk
  | tail _ hstep ih =>
    rcases Step_via_findDir SubOk _ _ hstep with h | ⟨dec, p, r, hP, h⟩
    · rw [h]; exact ih
    · exact (findDir_nodots dec hP _ _ p r ih h).1

/-- C6, counterexample: `List` succeeds and returns a file entry that does not
open as the claim says.  A decoder lists the entry `link` of size 5 and cannot
open it: `Open` of `mnt/link` fails.  A decoder lists the file `f` of size 5
and streams 3 bytes: `Open` of `mnt/f` yields 3 bytes.  A decoder resolves `.`
to the handle `3`: `List` of `mnt/.` lists that node and returns `mnt/x`, whose
parent `findParent` resolves to the root `0`, and `Open` fails; in the state
this leaves, with `.` cached, the same happens with a decoder that resolves no
child.  A decoder lists an item under the name `d/f`: `findParent` of its path
looks for the directory `d` and fails. -/
theorem List_then_Open_counterexample :
    sampleFs.List unopenableDecoder "mnt".toList =
      some (.ok [.object ⟨"mnt/link".toList, 5, 7⟩], sampleFs) ∧
    Object.Open sampleDecode unopenableDecoder sampleFs ⟨"mnt/link".toList, 5, 7⟩ [] =
      some (.error (.other "not a regular file"), sampleFs) ∧
    sampleFs.List shortDecoder "mnt".toList =
      some (.ok [.object ⟨"mnt/f".toList, 5, 7⟩], sampleFs) ∧
    Object.Open sampleDecode shortDecoder sampleFs ⟨"mnt/f".toList, 5, 7⟩ [] =
      some (.ok [97, 98, 99], sampleFs) ∧
    sampleFs.List dotDecoder "mnt/.".toList =
      some (.ok [.object ⟨"mnt/x".toList, 1, 7⟩],
        { sampleFs with dirCache := [(".".toList, 3), ([], 0)] }) ∧
    sampleFs.findDir dotDecoder ".".toList =
      some (.ok 3, { sampleFs with dirCache := [(".".toList, 3), ([], 0)] }) ∧
    Fs.findParent dotDecoder { sampleFs with dirCache := [(".".toList, 3), ([], 0)] }
      "x".toList =
      some (.ok (0, "x".toList), { sampleFs with dirCache := [(".".toList, 3), ([], 0)] }) ∧
    Object.Open sampleDecode dotDecoder
      { sampleFs with dirCache := [(".".toList, 3), ([], 0)] } ⟨"mnt/x".toList, 1, 7⟩ [] =
      some (.error (.wrap "open" .ErrNotExist),
        { sampleFs with dirCache := [(".".toList, 3), ([], 0)] }) ∧
    Fs.List plainDecoder { sampleFs with dirCache := [(".".toList, 3), ([], 0)] }
      "mnt/.".toList =
      some (.ok [.object ⟨"mnt/x".toList, 1, 7⟩],
        { sampleFs with dirCache := [(".".toList, 3), ([], 0)] }) ∧
    Object.Open sampleDecode plainDecoder
      { sampleFs with dirCache := [(".".toList, 3), ([], 0)] } ⟨"mnt/x".toList, 1, 7⟩ [] =
      some (.error (.wrap "open" .ErrNotExist),
        { sampleFs with dirCache := [(".".toList, 3), ([], 0)] }) ∧
    sampleFs.List slashNameDecoder "mnt".toList =
      some (.ok [.object ⟨"mnt/d/f".toList, 1, 7⟩], sampleFs) ∧
    Object.Open sampleDecode slashNameDecoder sampleFs ⟨"mnt/d/f".toList, 1, 7⟩ [] =
      some (.error .ErrorIsFile, sampleFs) := by
  refine ⟨?_, ?_, ?_, ?_, ?_, ?_, ?_, ?_, ?_, ?_, ?_, ?_⟩ <;> decide

/-- C6, amended: on every `Fs` reached from one that `New` returned by calls
with decoders that resolve neither `.` nor `..`, and with such a decoder whose
listings give every item the name of an entry and, for every item that is no
directory, a size that is the length of the stream the decoder opens for it:
for every directory path `d` for which `List` succeeds, every file entry of the
result belongs to an item of the directory node listed; `stripPrefix` of its
remote succeeds, `findParent` resolves to that very node with the item's name
as the leaf, and `Open` with no options succeeds, leaves the state as it is and
yields exactly `Size()` bytes. -/
theorem List_then_Open {N : Type} (st : Storage N) (dec0 : Decoder N)
    (remote pfx root : Str) (f0 f g : Fs N) (err : Option Error)
    (Decode : Int → Int → Int → Int × Int) (dec : Decoder N) (d : Str)
    (entries : DirEntries) (o : Object)
    (hnew : New st dec0 remote pfx root = some (some f0, err)) (hsteps : Steps SubOk f0 f)
    (hsub : SubOk dec) (hdec : ListingOk dec)
    (hlist : f.List dec d = some (.ok entries, g))
    (ho : DirEntry.object o ∈ entries) :
    ∃ (dir : Str) (X : N) (items : List DirItem) (item : DirItem) (content : List UInt8),
      f.stripPrefix d = .ok dir ∧
      f.findDir dec dir = some (.ok X, g) ∧ dec.ReadDir X = .ok items ∧ item ∈ items ∧
      item.IsDir = false ∧ item.Info = .ok ⟨o.Size, o.modTime⟩ ∧
      g.stripPrefix o.Remote = .ok (Join dir item.Name) ∧
      g.findParent dec (Join dir item.Name) = some (.ok (X, item.Name), g) ∧
      Object.Open Decode dec g o [] = some (.ok content, g) ∧
      (content.length : Int) = o.Size := by
  obtain ⟨hslash, -, hkeys⟩ :=
    reachable_wellFormed st dec0 remote pfx root f0 f err SubOk hnew hsteps
  obtain ⟨⟨rootDir, hc⟩, -, -, -⟩ := New_spec st dec0 remote pfx root f0 err hnew
  have hk0 : ∀ kv ∈ f0.dirCache, NoDots kv.1 := by
    rw [hc]
    intro kv hkv
    simp only [List.mem_singleton] at hkv
    rw [hkv]
    exact NoDots_nil
  have hk := Steps_nodots f0 f hk0 hsteps
  obtain ⟨dir, X, hstrip, hfd⟩ := List_ok_inv dec f g d entries hlist
  have hdots : NoDots dir := (findDir_nodots dec hsub f g dir _ hk hfd).2 X rfl
  obtain ⟨X2, items, item, content, h⟩ :=
    List_then_Open_nodots f g Decode dec d dir entries o hslash hkeys hdec hstrip hdots hlist ho
  exact ⟨dir, X2, items, item, content, hstrip, h⟩

theorem sampleDecoder_subOk : SubOk sampleDecoder := by
  intro parent leaf r h
  by_cases h0 : parent = 0 ∧ leaf = "a".toList
  · rw [h0.2]; decide
  · by_cases h1 : parent = 1 ∧ leaf = "empty".toList
    · rw [h1.2]; decide
    · have h2 : sampleDecoder.Sub parent leaf = .error (.wrap "sub" .ErrNotExist) := by
        show (if _ then _ else _) = _
        rw [if_neg h0, if_neg h1]
      rw [h2] at h
      cases h

theorem sampleDecoder_listingOk : ListingOk sampleDecoder := by
  intro dir items item h hm
  by_cases h0 : dir = 0
  · subst h0
    have hi : items = [{ Name := "a".toList, IsDir := true, Info := .ok ⟨0, 7⟩ }] := by
      simpa [sampleDecoder] using h.symm
    subst hi
    simp only [List.mem_singleton] at hm
    subst hm
    exact ⟨by decide, by simp⟩
  · by_cases h1 : dir = 1
    · subst h1
      have hi : items = [{ Name := "b.txt".toList, IsDir := false, Info := .ok ⟨4, 8⟩ },
          { Name := "empty".toList, IsDir := true, Info := .ok ⟨0, 9⟩ }] := by
        simpa [sampleDecoder] using h.symm
      subst hi
      simp only [List.mem_cons, List.mem_singleton, List.not_mem_nil, or_false] at hm
      rcases hm with rfl | rfl
      · refine ⟨by decide, ?_⟩
        intro _ fi hfi
        simp only [Except.ok.injEq] at hfi
        subst hfi
        exact ⟨[97, 98, 99, 100], by decide, by decide⟩
      · exact ⟨by decide, by simp⟩
    · have hi : items = [] := by
        simpa [sampleDecoder, h0, h1] using h.symm
      subst hi
      simp at hm

/-- C6, amended, on the small archive: `List` of `mnt/a` returns the file `mnt/a/b.txt`
of size 4, whose parent resolves to the directory listed and whose stream
holds 4 bytes. -/
theorem List_then_Open_witness :
    ∃ (dir : Str) (X : Nat) (items : List DirItem) (item : DirItem) (content : List UInt8),
      sampleFs.stripPrefix "mnt/a".toList = .ok dir ∧
      sampleFs.findDir sampleDecoder dir =
        some (.ok X, { sampleFs with dirCache := [("a".toList, 1), ([], 0)] }) ∧
      sampleDecoder.ReadDir X = .ok items ∧ item ∈ items ∧
      item.IsDir = false ∧
      item.Info = .ok ⟨Object.Size ⟨"mnt/a/b.txt".toList, 4, 8⟩,
        Object.modTime ⟨"mnt/a/b.txt".toList, 4, 8⟩⟩ ∧
      Fs.stripPrefix ({ sampleFs with dirCache := [("a".toList, 1), ([], 0)] } : Fs Nat)
        (Object.Remote ⟨"mnt/a/b.txt".toList, 4, 8⟩) = .ok (Join dir item.Name) ∧
      Fs.findParent sampleDecoder { sampleFs with dirCache := [("a".toList, 1), ([], 0)] }
        (Join dir item.Name) =
        some (.ok (X, item.Name), { sampleFs with dirCache := [("a".toList, 1), ([], 0)] }) ∧
      Object.Open sampleDecode sampleDecoder
        { sampleFs with dirCache := [("a".toList, 1), ([], 0)] }
        ⟨"mnt/a/b.txt".toList, 4, 8⟩ [] =
        some (.ok content, { sampleFs with dirCache := [("a".toList, 1), ([], 0)] }) ∧
      (content.length : Int) = Object.Size ⟨"mnt/a/b.txt".toList, 4, 8⟩ :=
  List_then_Open sampleStorage sampleDecoder "x.sqfs".toList "mnt".toList [] sampleFs sampleFs
    { sampleFs with dirCache := [("a".toList, 1), ([], 0)] } none sampleDecode sampleDecoder
    "mnt/a".toList
    [.object ⟨"mnt/a/b.txt".toList, 4, 8⟩, .dir "mnt/a/empty".toList 9]
    ⟨"mnt/a/b.txt".toList, 4, 8⟩
    (by decide) Relation.ReflTransGen.refl sampleDecoder_subOk sampleDecoder_listingOk
    (by decide) (by decide)

end Squashfs
